import Mathlib

/-
Verification development for the analytics-dashboard core in
src/02_streamlit/utils.py.

Strings are modelled as lists of Unicode scalar values (`List Char`).
Python library primitives (str.lower, unicodedata NFD decomposition,
the "Mn" category test, str.split/strip whitespace) are modelled by
explicit tables covering ASCII plus the accented letters that occur in
French region names; characters outside the tables are left untouched,
which matches the library behaviour on every character class the
normaliser distinguishes.
-/

abbrev Str := List Char

/-- Python whitespace for str.split() / str.strip(), ASCII subset. -/
def pyWS (c : Char) : Bool :=
  c = ' ' || c = '\t' || c = '\n' || c = '\r' || c = '\x0b' || c = '\x0c'

/-- Association-list lookup keyed by characters. -/
def tlook {α : Type} : List (Char × α) → Char → Option α
  | [], _ => none
  | (k, v) :: t, c => if k = c then some v else tlook t c

/-- The lowercase mapping of Python str.lower() restricted to ASCII letters
and the accented capitals appearing in French region names. -/
def lowerTable : List (Char × Char) :=
  [('A','a'),('B','b'),('C','c'),('D','d'),('E','e'),('F','f'),('G','g'),
   ('H','h'),('I','i'),('J','j'),('K','k'),('L','l'),('M','m'),('N','n'),
   ('O','o'),('P','p'),('Q','q'),('R','r'),('S','s'),('T','t'),('U','u'),
   ('V','v'),('W','w'),('X','x'),('Y','y'),('Z','z'),
   ('À','à'),('Â','â'),('Ç','ç'),('È','è'),('É','é'),('Ê','ê'),('Ë','ë'),
   ('Î','î'),('Ï','ï'),('Ô','ô'),('Ù','ù'),('Û','û'),('Ü','ü')]

/-- Python str.lower() per character (identity outside the table). -/
def pyLower (c : Char) : Char := (tlook lowerTable c).getD c

/-- Canonical decomposition (unicodedata.normalize NFD) per character, for
the lowercase accented letters reachable after lowering; other characters
decompose to themselves. -/
def nfdTable : List (Char × List Char) :=
  [('à',['a','̀']),('â',['a','̂']),('ç',['c','̧']),
   ('è',['e','̀']),('é',['e','́']),('ê',['e','̂']),('ë',['e','̈']),
   ('î',['i','̂']),('ï',['i','̈']),('ô',['o','̂']),
   ('ù',['u','̀']),('û',['u','̂']),('ü',['u','̈'])]

/-- unicodedata.normalize NFD, per character. -/
def nfdChar (c : Char) : List Char := (tlook nfdTable c).getD [c]

/-- unicodedata.category(ch) == Mn, for the combining marks in scope. -/
def isMn (c : Char) : Bool :=
  c = '̀' || c = '́' || c = '̂' || c = '̈' || c = '̧'

/-- Python str.strip(). -/
def stripWS (s : Str) : Str :=
  ((s.dropWhile pyWS).reverse.dropWhile pyWS).reverse

/-- Mapping str.lower() over the string. -/
def lowerStr (s : Str) : Str := s.map pyLower

/-- unicodedata.normalize applied to the whole string. -/
def nfdStr (s : Str) : Str := (s.map nfdChar).flatten

/-- The accent-removal comprehension of norm_str: keep characters whose
category is not Mn. -/
def stripMarks (s : Str) : Str := s.filter (fun c => !isMn c)

/-- Worker for Python str.split() with no separator argument. -/
def splitGo : List Char → List Char → List Str
  | [], acc => if acc.isEmpty then [] else [acc.reverse]
  | c :: cs, acc =>
    if pyWS c then (if acc.isEmpty then splitGo cs [] else acc.reverse :: splitGo cs [])
    else splitGo cs (c :: acc)

/-- Python s.split(): the maximal whitespace-free runs of s. -/
def pySplit (s : Str) : List Str := splitGo s []

/-- Python " ".join(parts). -/
def joinSp : List Str → Str
  | [] => []
  | [t] => t
  | t :: ts => t ++ ' ' :: joinSp ts

/-- The body of norm_str on an actual string (utils.py lines 53-57):
strip, lower, NFD-decompose, drop combining marks, collapse whitespace. -/
def normString (s : Str) : Str :=
  joinSp (pySplit (stripMarks (nfdStr (lowerStr (stripWS s)))))

/-- The per-character effect of the lower/NFD/mark-removal stages, used to
reason about normString. -/
def outChar (c : Char) : Str := (nfdChar (pyLower c)).filter (fun d => !isMn d)

/-- The character-level stage of normString (everything between strip and
the whitespace collapse), as one function for proofs. -/
def foldChars (s : Str) : Str := stripMarks (nfdStr (lowerStr s))

/-- JSON values, which double as the Python values norm_str may receive
(JSON null is Python None after json.loads). -/
inductive JVal where
  | null
  | jbool (b : Bool)
  | num (q : ℚ)
  | str (s : Str)
  | arr (elems : List JVal)
  | obj (fields : List (Str × JVal))

/-- Decimal digits of an integer, as Python str() renders it. -/
def intRepr (i : Int) : Str :=
  if i < 0 then '-' :: Nat.toDigits 10 i.natAbs else Nat.toDigits 10 i.toNat

/-- Numeric repr; exact on integers, best effort on non-integral rationals. -/
def ratRepr (q : ℚ) : Str :=
  if q.den = 1 then intRepr q.num
  else intRepr q.num ++ '/' :: Nat.toDigits 10 q.den

/-- Python str() coercion on the values in scope; container reprs are
modelled opaquely (no claim evaluates them). -/
def pyStrJ : JVal → Str
  | .null => "None".data
  | .jbool true => "True".data
  | .jbool false => "False".data
  | .num q => ratRepr q
  | .str s => s
  | .arr _ => "[...]".data
  | .obj _ => "\x7b...\x7d".data

/-- norm_str from utils.py lines 49-57: if s is None return the empty
string, otherwise coerce with str() and normalise. -/
def norm_str (v : JVal) : Str :=
  match v with
  | .null => []
  | v => normString (pyStrJ v)

/- The GeoJSON side: features, key detection and annotation. -/

/-- String-keyed association lookup, modelling Python dict access (a dict
has at most one binding per key; the first binding wins). -/
def alookupV : List (Str × JVal) → Str → Option JVal
  | [], _ => none
  | (k, v) :: t, s => if k = s then some v else alookupV t s

/-- Python dict assignment d[k] = v: rebind in place if the key exists,
else append (dicts keep insertion order). -/
def aset : List (Str × JVal) → Str → JVal → List (Str × JVal)
  | [], k, v => [(k, v)]
  | (k', v') :: t, k, v => if k' = k then (k, v) :: t else (k', v') :: aset t k v

/-- The properties entry of a GeoJSON feature, distinguishing the three
GeoJSON-legal shapes (RFC 7946: the member is a JSON object or null, and
it may be absent altogether), because the source treats them differently:
feat.get("properties", empty-dict) or empty-dict collapses absent and
null to an empty dict, while feat.setdefault("properties", empty-dict)
materialises an empty dict only for an absent entry and returns None for
a null one. -/
inductive PropsEntry where
  | absent
  | nullv
  | dict (fields : List (Str × JVal))

/-- A GeoJSON feature: its properties entry and its geometry, opaque to
this core. -/
structure Feature where
  properties : PropsEntry
  geometry : JVal

/-- feat.get("properties", empty-dict) or empty-dict: the dict fields,
with absent and null both collapsed to the empty dict. -/
def propsFields : PropsEntry → List (Str × JVal)
  | .dict fs => fs
  | _ => []

/-- A GeoJSON feature collection. -/
structure GeoJSON where
  features : List Feature

/-- The fixed priority list of candidate name fields (utils.py 67-73). -/
def regionKeyCandidates : List Str :=
  ["nom".data, "Nom".data, "NOM".data,
   "name".data, "Name".data, "NAME".data,
   "region".data, "REGION".data,
   "libelle".data, "LIBELLE".data,
   "nom_region".data, "NOM_REGION".data]

/-- The candidate loop: first candidate that is a key of props. -/
def findCandidateKey (props : List (Str × JVal)) : Option Str :=
  regionKeyCandidates.find? (fun k => (alookupV props k).isSome)

/-- The fallback loop: first property whose value is a string with
non-whitespace content (isinstance(v, str) and v.strip()). -/
def firstTextKey : List (Str × JVal) → Option Str
  | [] => none
  | (k, .str s) :: t => if (stripWS s).isEmpty then firstTextKey t else some k
  | _ :: t => firstTextKey t

/-- guess_geojson_region_key (utils.py 60-83). -/
def guess_geojson_region_key (g : GeoJSON) : Str :=
  match g.features with
  | [] => "nom".data
  | f0 :: _ =>
    let props := propsFields f0.properties
    match findCandidateKey props with
    | some k => k
    | none =>
      match firstTextKey props with
      | some k => k
      | none =>
        match props with
        | [] => "nom".data
        | (k, _) :: _ => k

/-- The key-detection algorithm exactly as the claim words it: the
candidate list, else the first property whose value is a non-empty string,
else the default field name. Stated for comparison with the source. -/
def firstNonEmptyStringKey : List (Str × JVal) → Option Str
  | [] => none
  | (k, .str s) :: t => if s.isEmpty then firstNonEmptyStringKey t else some k
  | _ :: t => firstNonEmptyStringKey t

/-- Key detection as described by the claim (C4's spec wording). -/
def specGuessKeyClaim (g : GeoJSON) : Str :=
  match g.features with
  | [] => "nom".data
  | f0 :: _ =>
    let props := propsFields f0.properties
    match findCandidateKey props with
    | some k => k
    | none =>
      match firstNonEmptyStringKey props with
      | some k => k
      | none => "nom".data

/-- Key detection as the amended claim describes it: candidates, then the
first property whose value is a string with non-whitespace content, then
the first property name when the mapping is non-empty, else the default. -/
def specGuessKeyAmended (g : GeoJSON) : Str :=
  match g.features with
  | [] => "nom".data
  | f0 :: _ =>
    let props := propsFields f0.properties
    (((findCandidateKey props).orElse (fun _ => firstTextKey props)).getD
      (match props with
       | [] => "nom".data
       | (k, _) :: _ => k))

/-- One step of the annotation loop (utils.py 152-154) at the level of
values: feat.setdefault("properties", empty-dict) materialises an empty
dict for an absent entry and returns the dict for a present one, then the
region_norm assignment stores the normalised value found at the detected
key (default the empty string); when the properties entry is JSON null,
setdefault returns None and the assignment raises TypeError, modelled by
none. -/
def annotateFeatureV (key : Str) (f : Feature) : Option Feature :=
  match f.properties with
  | .nullv => none
  | pe => some { f with properties := .dict (aset (propsFields pe) "region_norm".data
      (.str (norm_str ((alookupV (propsFields pe) key).getD (.str []))))) }

/-- The annotation loop over the features; the first feature on which the
region_norm assignment raises aborts the whole call. -/
def annotateFeatures (key : Str) : List Feature → Option (List Feature)
  | [] => some []
  | f :: fs =>
    match annotateFeatureV key f with
    | none => none
    | some f' => (annotateFeatures key fs).map (fun fs' => f' :: fs')

/-- geojson_with_norm_names (utils.py 143-156) at the level of values: the
deep copy (json round-trip) preserves the value, then every feature gains
properties region_norm; a feature whose properties entry is JSON null
makes the call raise (none). -/
def geojson_with_norm_names (g : GeoJSON) : Option (GeoJSON × Str) :=
  let key := guess_geojson_region_key g
  (annotateFeatures key g.features).map (fun fs => (⟨fs⟩, key))

/-- Projection: the value at key k of a property mapping when it is a
string (used to state claims without equality on raw JSON values). -/
def propStr (props : List (Str × JVal)) (k : Str) : Option Str :=
  match alookupV props k with
  | some (.str s) => some s
  | _ => none

/- Exact numeric cells. -/

/-- Exact fractions with kernel-computable arithmetic: the float64
arithmetic pandas performs on these inputs is modelled as exact rational
arithmetic. Every operation keeps the denominator positive, and the
zero test used by the code compares the value, not the representation. -/
structure Frac where
  n : Int
  d : Int
deriving DecidableEq

instance (k : Nat) : OfNat Frac k := ⟨⟨(k : Int), 1⟩⟩

instance : Add Frac := ⟨fun a b => ⟨a.n * b.d + b.n * a.d, a.d * b.d⟩⟩

instance : Sub Frac := ⟨fun a b => ⟨a.n * b.d - b.n * a.d, a.d * b.d⟩⟩

instance : Mul Frac := ⟨fun a b => ⟨a.n * b.n, a.d * b.d⟩⟩

/-- Reciprocal, with the sign moved to the numerator; 0 maps to 0. -/
def Frac.inv (a : Frac) : Frac :=
  if a.n > 0 then ⟨a.d, a.n⟩ else if a.n < 0 then ⟨-a.d, -a.n⟩ else ⟨0, 1⟩

instance : Div Frac := ⟨fun a b => a * b.inv⟩

/-- Equality of fractions as rational values (cross multiplication). -/
def Frac.valEq (a b : Frac) : Prop := a.n * b.d = b.n * a.d

instance (a b : Frac) : Decidable (a.valEq b) := by unfold Frac.valEq; infer_instance

/-- Sum of a list of fractions, as pandas sums a group. -/
def fsum (l : List Frac) : Frac := l.foldr (· + ·) 0

/- The dataset loader. -/

/-- One parsed CSV row after pandas numeric coercion: measure cells hold
none where to_numeric produced NaN, the year is an Int64 cell with nulls
tolerated, and the region name cell is kept raw for norm_str. -/
structure CsvRow where
  codgeo : Str
  annee : Option Int
  nombre : Option Frac
  insee_pop : Option Frac
  nom_region : JVal

/-- A loaded row: the CSV row plus the derived nom_region_norm column. -/
structure LoadedRow extends CsvRow where
  nom_region_norm : Str

/-- load_data (utils.py 104-121) after the file read and coercions, for a
table containing both measure columns: drop each row where either measure
is null, then map norm_str over the region names. -/
def load_data (df : List CsvRow) : List LoadedRow :=
  (df.filter (fun r => r.nombre.isSome && r.insee_pop.isSome)).map
    (fun r => ⟨r, norm_str r.nom_region⟩)

/- The metrics builder. -/

/-- A row of the metrics input table (the loader's output schema): the
three groupby keys and the two measures. A none year models a null Int64
cell, whose rows pandas groupby drops; none measures model NaN, which the
groupwise sum skips. -/
structure DRow where
  nom_region : Str
  nom_region_norm : Str
  annee : Option Int
  nombre : Option Frac
  insee_pop : Option Frac
deriving DecidableEq

abbrev GroupKey := Str × Str × Int

/-- The group key of a row, none when the year is null. -/
def rowKey (r : DRow) : Option GroupKey :=
  r.annee.map (fun y => (r.nom_region, r.nom_region_norm, y))

/-- Lexicographic order on group keys, matching the sorted order of
pandas groupby output. -/
def keyLe (a b : GroupKey) : Prop :=
  a.1 < b.1 ∨ (a.1 = b.1 ∧ (a.2.1 < b.2.1 ∨ (a.2.1 = b.2.1 ∧ a.2.2 ≤ b.2.2)))

instance : DecidableRel keyLe := fun a b => by unfold keyLe; infer_instance

/-- The distinct group keys of the table in groupby order. -/
def groupKeys (df : List DRow) : List GroupKey :=
  List.insertionSort keyLe (df.filterMap rowKey).dedup

/-- Sum of the incident counts of a group (NaN cells skipped). -/
def nbSum (df : List DRow) (k : GroupKey) : Frac :=
  fsum ((df.filter (fun r => rowKey r = some k)).filterMap (fun r => r.nombre))

/-- Sum of the populations of a group (NaN cells skipped). -/
def popSum (df : List DRow) (k : GroupKey) : Frac :=
  fsum ((df.filter (fun r => rowKey r = some k)).filterMap (fun r => r.insee_pop))

/-- One aggregated output row of build_region_metrics. -/
structure GRow where
  nom_region : Str
  nom_region_norm : Str
  annee : Int
  nb_region : Frac
  pop_region : Option Frac
  taux_region_pour_mille : Option Frac
  variation_region : Frac

/-- The aggregation, zero-population replacement and rate of one group
(utils.py 176-185); the variation is filled by the later pass. -/
def aggRow (df : List DRow) (k : GroupKey) : GRow :=
  let nb := nbSum df k
  let pop := popSum df k
  let popR : Option Frac := if pop.n = 0 then none else some pop
  { nom_region := k.1, nom_region_norm := k.2.1, annee := k.2.2,
    nb_region := nb, pop_region := popR,
    taux_region_pour_mille := popR.map (fun p => 1000 * (nb / p)),
    variation_region := 0 }

/-- The sort order of sort_values(nom_region, annee) (utils.py 187). -/
def rowLe (a b : GRow) : Prop :=
  a.nom_region < b.nom_region ∨ (a.nom_region = b.nom_region ∧ a.annee ≤ b.annee)

instance : DecidableRel rowLe := fun a b => by unfold rowLe; infer_instance

instance : IsTotal GRow rowLe where
  total a b := by
    unfold rowLe
    rcases lt_trichotomy a.nom_region b.nom_region with h | h | h
    · exact Or.inl (Or.inl h)
    · rcases le_total a.annee b.annee with h' | h'
      · exact Or.inl (Or.inr ⟨h, h'⟩)
      · exact Or.inr (Or.inr ⟨h.symm, h'⟩)
    · exact Or.inr (Or.inl h)

instance : IsTrans GRow rowLe where
  trans a b c hab hbc := by
    unfold rowLe at hab hbc ⊢
    rcases hab with h1 | ⟨h1, h1'⟩
    · rcases hbc with h2 | ⟨h2, h2'⟩
      · exact Or.inl (h1.trans h2)
      · exact Or.inl (h2 ▸ h1)
    · rcases hbc with h2 | ⟨h2, h2'⟩
      · exact Or.inl (h1 ▸ h2)
      · exact Or.inr ⟨h1.trans h2, h1'.trans h2'⟩

/-- The per-region memory of groupby(nom_region) dot diff: the taux of the
most recently processed row of each region. -/
def tlookS : List (Str × Option Frac) → Str → Option (Option Frac)
  | [], _ => none
  | (k, v) :: t, s => if k = s then some v else tlookS t s

/-- The diff-and-fillna pass (utils.py 188-192) over the sorted rows: the
variation is taux minus the previous same-region taux, and 0 whenever that
difference is NA (first row of a region, or an NA taux on either side). -/
def variationPass : List GRow → List (Str × Option Frac) → List GRow
  | [], _ => []
  | r :: rs, seen =>
    { r with variation_region :=
        match r.taux_region_pour_mille, (tlookS seen r.nom_region).getD none with
        | some a, some b => a - b
        | _, _ => 0 } ::
      variationPass rs ((r.nom_region, r.taux_region_pour_mille) :: seen)

/-- build_region_metrics (utils.py 162-193): group by the three key
columns, sum the measures, replace zero summed population by NA, derive
the per-thousand rate, sort by (region, year), and take per-region
year-over-year differences with NA differences filled as 0. The
required-columns check of lines 171-174 is carried by the typed row. -/
def build_region_metrics (df : List DRow) : List GRow :=
  variationPass (List.insertionSort rowLe ((groupKeys df).map (aggRow df))) []

/-- Single-region view of the diff pass, for reasoning: thread only the
previous taux of this region. -/
def diffRegion : Option Frac → List GRow → List GRow
  | _, [] => []
  | prev, r :: rs =>
    { r with variation_region :=
        match r.taux_region_pour_mille, prev with
        | some a, some b => a - b
        | _, _ => 0 } :: diffRegion r.taux_region_pour_mille rs

/- Matching diagnostics. -/

/-- The normalised key of an annotated feature, with the empty-string
default of properties.get("region_norm", ""); the annotated collections
this function receives store strings there. -/
def geoNormVal (f : Feature) : Str :=
  match alookupV (propsFields f.properties) "region_norm".data with
  | some (.str s) => s
  | _ => []

/-- Python sorted() on a list of strings (code-point lexicographic). -/
def pySorted (l : List Str) : List Str := List.insertionSort (· ≤ ·) l

/-- The result record of compute_matching_diagnostics. -/
structure Diagnostics where
  n_regions_data : Nat
  n_regions_geo : Nat
  missing_in_geo : List Str
  missing_in_data : List Str

/-- compute_matching_diagnostics (utils.py 199-219). The metrics table
enters only through its nom_region_norm column, passed as the column
itself (a none cell is a NaN dropped by dropna); sets are modelled as
deduplicated lists. -/
def compute_matching_diagnostics (normCol : List (Option Str)) (geojson_norm : GeoJSON) :
    Diagnostics :=
  let geo_regions := ((geojson_norm.features.map geoNormVal).dedup).filter
    (fun r => !r.isEmpty)
  let data_regions := (normCol.filterMap id).dedup
  { n_regions_data := data_regions.length,
    n_regions_geo := geo_regions.length,
    missing_in_geo := pySorted (data_regions.filter (fun r => !(decide (r ∈ geo_regions)))),
    missing_in_data := pySorted (geo_regions.filter (fun r => !(decide (r ∈ data_regions)))) }

/-- The count of distinct non-empty normalised keys of the metrics column,
as the claim words the data-side count. -/
def specNonEmptyKeyCount (normCol : List (Option Str)) : Nat :=
  (((normCol.filterMap id).filter (fun r => !r.isEmpty)).dedup).length

/- A heap model of Python object identity, for the copy discipline of
geojson_with_norm_names: values are scalars or references to container
objects living in a heap, dict/list mutation acts on the heap, and
json.dumps followed by json.loads allocates only fresh objects. -/

/-- Heap values: JSON scalars inline, containers by reference. -/
inductive HVal where
  | null
  | hbool (b : Bool)
  | num (q : ℚ)
  | str (s : Str)
  | ref (a : Nat)
deriving DecidableEq

/-- Heap objects: the mutable containers. -/
inductive HObj where
  | arr (elems : List HVal)
  | obj (fields : List (Str × HVal))
deriving DecidableEq

abbrev Heap := List HObj

/-- Read the object at an address. -/
def hget : Heap → Nat → Option HObj
  | [], _ => none
  | o :: _, 0 => some o
  | _ :: t, a + 1 => hget t a

/-- Overwrite the object at an address (no-op outside the heap). -/
def hset : Heap → Nat → HObj → Heap
  | [], _, _ => []
  | _ :: t, 0, o => o :: t
  | x :: t, a + 1, o => x :: hset t a o

/-- Association lookup in heap-level dict fields. -/
def alookupH : List (Str × HVal) → Str → Option HVal
  | [], _ => none
  | (k, v) :: t, s => if k = s then some v else alookupH t s

/-- Python dict assignment at the heap level. -/
def asetH : List (Str × HVal) → Str → HVal → List (Str × HVal)
  | [], k, v => [(k, v)]
  | (k', v') :: t, k, v => if k' = k then (k, v) :: t else (k', v') :: asetH t k v

/-- json.dumps with a recursion budget (Python raises past its recursion
limit, and raises ValueError on a circular structure): serialise the
object graph below a value into a JSON tree. -/
def dump (h : Heap) : Nat → HVal → Option JVal
  | 0, _ => none
  | _ + 1, .null => some .null
  | _ + 1, .hbool b => some (.jbool b)
  | _ + 1, .num q => some (.num q)
  | _ + 1, .str s => some (.str s)
  | fuel + 1, .ref a =>
    match hget h a with
    | some (.arr es) =>
      (es.foldl (fun acc v => acc.bind (fun js =>
        (dump h fuel v).map (fun j => js ++ [j]))) (some [])).map .arr
    | some (.obj fs) =>
      (fs.foldl (fun acc p => acc.bind (fun js =>
        (dump h fuel p.2).map (fun j => js ++ [(p.1, j)]))) (some [])).map .obj
    | none => none

/-- json.loads: rebuild a JSON tree in the heap, allocating only fresh
container objects after the existing ones; scalars load inline. -/
def load : Nat → JVal → Heap → Option (HVal × Heap)
  | 0, _, _ => none
  | _ + 1, .null, h => some (.null, h)
  | _ + 1, .jbool b, h => some (.hbool b, h)
  | _ + 1, .num q, h => some (.num q, h)
  | _ + 1, .str s, h => some (.str s, h)
  | fuel + 1, .arr es, h =>
    (es.foldl (fun acc e => acc.bind (fun hsh =>
      (load fuel e hsh.2).map (fun vh => (hsh.1 ++ [vh.1], vh.2))))
      (some ([], h))).map
      (fun hsh => (HVal.ref hsh.2.length, hsh.2 ++ [HObj.arr hsh.1]))
  | fuel + 1, .obj fs, h =>
    (fs.foldl (fun acc p => acc.bind (fun hsh =>
      (load fuel p.2 hsh.2).map (fun vh => (hsh.1 ++ [(p.1, vh.1)], vh.2))))
      (some ([], h))).map
      (fun hsh => (HVal.ref hsh.2.length, hsh.2 ++ [HObj.obj hsh.1]))

/-- The candidate scan on heap-level properties. -/
def findCandidateKeyH (props : List (Str × HVal)) : Option Str :=
  regionKeyCandidates.find? (fun k => (alookupH props k).isSome)

/-- The text fallback on heap-level properties. -/
def firstTextKeyH : List (Str × HVal) → Option Str
  | [] => none
  | (k, .str s) :: t => if (stripWS s).isEmpty then firstTextKeyH t else some k
  | _ :: t => firstTextKeyH t

/-- guess_geojson_region_key read off the heap copy (reads only). -/
def hGuessKey (h : Heap) (root : Nat) : Str :=
  match hget h root with
  | some (.obj fs) =>
    match alookupH fs "features".data with
    | some (.ref fa) =>
      match hget h fa with
      | some (.arr (f0 :: _)) =>
        match f0 with
        | .ref fr =>
          match hget h fr with
          | some (.obj fields) =>
            let props : List (Str × HVal) :=
              match alookupH fields "properties".data with
              | some (.ref pa) =>
                match hget h pa with
                | some (.obj pf) => pf
                | _ => []
              | _ => []
            match findCandidateKeyH props with
            | some k => k
            | none =>
              match firstTextKeyH props with
              | some k => k
              | none =>
                match props with
                | [] => "nom".data
                | (k, _) :: _ => k
          | _ => "nom".data
        | _ => "nom".data
      | _ => "nom".data
    | _ => "nom".data
  | _ => "nom".data

/-- The value handed to norm_str by the annotation loop: scalars as the
Python values they are; a container argument would go through str(),
opaque here (no write address depends on it). -/
def hvalAsJ : HVal → JVal
  | .null => .null
  | .hbool b => .jbool b
  | .num q => .num q
  | .str s => .str s
  | .ref _ => .str []

/-- props[region_norm] = norm_str(props.get(key, "")), on the heap. -/
def writeNorm (h : Heap) (pa : Nat) (key : Str) : Heap :=
  match hget h pa with
  | some (.obj pf) =>
    hset h pa (.obj (asetH pf "region_norm".data
      (.str (norm_str (hvalAsJ ((alookupH pf key).getD (.str [])))))))
  | _ => h

/-- One iteration of the annotation loop: feat.setdefault("properties",
empty dict), then the region_norm write. A malformed feature (not a dict
reference, or scalar properties) makes Python raise before mutating it;
the heap is then left as it is. -/
def annotateFeature (key : Str) (h : Heap) (fv : HVal) : Heap :=
  match fv with
  | .ref fa =>
    match hget h fa with
    | some (.obj fields) =>
      match alookupH fields "properties".data with
      | some (.ref pa) => writeNorm h pa key
      | some _ => h
      | none =>
        let pa := h.length
        let h1 := h ++ [HObj.obj []]
        let h2 := hset h1 fa (.obj (fields ++ [("properties".data, HVal.ref pa)]))
        writeNorm h2 pa key
    | _ => h
  | _ => h

/-- The features list of the copy (gj.get("features", [])). -/
def featsOf (h : Heap) (root : Nat) : List HVal :=
  match hget h root with
  | some (.obj fs) =>
    match alookupH fs "features".data with
    | some (.ref a) =>
      match hget h a with
      | some (.arr es) => es
      | _ => []
    | _ => []
  | _ => []

/-- geojson_with_norm_names at the heap level (utils.py 143-156): deep
copy by json round trip, key detection on the copy, then the annotation
loop over the copy's features. Returns the final heap, the copy root and
the detected key. -/
def geojson_with_norm_names_heap (fuel : Nat) (h : Heap) (root : Nat) :
    Option (Heap × Nat × Str) :=
  match dump h fuel (.ref root) with
  | none => none
  | some v =>
    match load fuel v h with
    | some (.ref copyRoot, h1) =>
      let key := hGuessKey h1 copyRoot
      some ((featsOf h1 copyRoot).foldl (annotateFeature key) h1, copyRoot, key)
    | _ => none

/-- Does every reference of a value stay below n. -/
def hvalRefsLT (v : HVal) (n : Nat) : Bool :=
  match v with
  | .ref a => a < n
  | _ => true

/-- Does every reference of an object stay below n. -/
def hobjRefsLT (o : HObj) (n : Nat) : Bool :=
  match o with
  | .arr es => es.all (fun v => hvalRefsLT v n)
  | .obj fs => fs.all (fun p => hvalRefsLT p.2 n)

/-- Well-formed heap: every stored reference points into the heap. -/
def heapWF (h : Heap) : Bool := h.all (fun o => hobjRefsLT o h.length)

/-- Every reference of a value is at or above n. -/
def hvalRefsGE (v : HVal) (n : Nat) : Prop := ∀ a, v = HVal.ref a → n ≤ a

/-- Every reference of an object is at or above n. -/
def hobjRefsGE (o : HObj) (n : Nat) : Prop :=
  match o with
  | .arr es => ∀ v ∈ es, hvalRefsGE v n
  | .obj fs => ∀ p ∈ fs, hvalRefsGE p.2 n

/-- The frame invariant of the annotation phase over the original heap
h0: the heap only grew, every address of h0 still holds its old object,
and everything in the fresh region references only the fresh region. -/
def HeapInv (h0 h : Heap) : Prop :=
  h0.length ≤ h.length ∧
  (∀ a, a < h0.length → hget h a = hget h0 a) ∧
  (∀ a o, h0.length ≤ a → hget h a = some o → hobjRefsGE o h0.length)

/-- What json.loads guarantees: the heap only grew, old addresses kept
their objects, the returned value references only the fresh region, and
the fresh region references only the fresh region. -/
def LoadExt (h h' : Heap) (hv : HVal) : Prop :=
  h.length ≤ h'.length ∧
  (∀ a, a < h.length → hget h' a = hget h a) ∧
  hvalRefsGE hv h.length ∧
  (∀ a o, h.length ≤ a → hget h' a = some o → hobjRefsGE o h.length)

/-- The sample heap of the no-mutation witness: a feature collection with
one feature that has no properties yet. -/
def heapSample : Heap :=
  [HObj.obj [("features".data, HVal.ref 1)], HObj.arr [HVal.ref 2], HObj.obj []]

/- Concrete sample inputs used by counterexamples and witnesses. -/

/-- A feature whose only property is numeric: no candidate matches and no
text fallback exists. -/
def geoSampleCode : GeoJSON := ⟨[⟨.dict [("code".data, JVal.num 7)], JVal.null⟩]⟩

/-- A feature that already carries a region_norm property. -/
def geoSampleKeep : GeoJSON :=
  ⟨[⟨.dict [("nom".data, .str "Bretagne".data),
            ("region_norm".data, .str "KEEP".data)], .null⟩]⟩

/-- A feature named through the NOM spelling. -/
def geoSampleNom : GeoJSON := ⟨[⟨.dict [("NOM".data, .str "Bretagne".data)], .null⟩]⟩

/-- A CSV row with both measures present. -/
def csvSample : CsvRow := ⟨"01001".data, some 2020, some 5, some 100, .str "A".data⟩

/-- The loaded form of csvSample. -/
def loadedSample : LoadedRow := ⟨csvSample, "a".data⟩

/-- The two-row example table of the spec: region A, years 2020 and 2021,
counts 10 and 20 over population 1000. -/
def dfSample : List DRow :=
  [⟨"A".data, "a".data, some 2020, some 10, some 1000⟩,
   ⟨"A".data, "a".data, some 2021, some 20, some 1000⟩]

/- Lemmas about the normaliser. -/

lemma tlook_some_mem {α : Type} {t : List (Char × α)} {c : Char} {v : α}
    (h : tlook t c = some v) : (c, v) ∈ t := by
  induction t with
  | nil => simp [tlook] at h
  | cons p t ih =>
    obtain ⟨k, w⟩ := p
    by_cases hk : k = c
    · subst hk
      simp [tlook] at h
      simp [h]
    · simp only [tlook, if_neg hk] at h
      exact List.mem_cons_of_mem _ (ih h)

lemma foldChars_cons (c : Char) (s : Str) :
    foldChars (c :: s) = outChar c ++ foldChars s := by
  simp [foldChars, outChar, lowerStr, nfdStr, stripMarks, List.filter_append]

lemma outChar_fix {c d : Char} (hd : d ∈ outChar c) :
    pyLower d = d ∧ nfdChar d = [d] := by
  unfold outChar at hd
  cases h1 : tlook lowerTable c with
  | some c' =>
    have hpl : pyLower c = c' := by simp [pyLower, h1]
    have hmem := tlook_some_mem h1
    have hall : ∀ p ∈ lowerTable,
        ∀ d ∈ (nfdChar p.2).filter (fun x => !isMn x),
          pyLower d = d ∧ nfdChar d = [d] := by decide
    rw [hpl] at hd
    exact hall _ hmem d hd
  | none =>
    have hpl : pyLower c = c := by simp [pyLower, h1]
    rw [hpl] at hd
    cases h2 : tlook nfdTable c with
    | some l =>
      have hnc : nfdChar c = l := by simp [nfdChar, h2]
      have hmem := tlook_some_mem h2
      have hall : ∀ p ∈ nfdTable,
          ∀ d ∈ p.2.filter (fun x => !isMn x),
            pyLower d = d ∧ nfdChar d = [d] := by decide
      rw [hnc] at hd
      exact hall _ hmem d hd
    | none =>
      have hnc : nfdChar c = [c] := by simp [nfdChar, h2]
      rw [hnc] at hd
      rcases List.mem_filter.1 hd with ⟨hdc, -⟩
      rcases List.mem_singleton.1 hdc with rfl
      exact ⟨hpl, hnc⟩

lemma foldChars_chars {s : Str} {d : Char} (hd : d ∈ foldChars s) :
    pyLower d = d ∧ nfdChar d = [d] ∧ isMn d = false := by
  induction s with
  | nil => simp [foldChars, lowerStr, nfdStr, stripMarks] at hd
  | cons c s ih =>
    rw [foldChars_cons] at hd
    rcases List.mem_append.1 hd with h | h
    · have h2 := outChar_fix h
      have h3 : isMn d = false := by
        unfold outChar at h
        have := (List.mem_filter.1 h).2
        simpa using this
      exact ⟨h2.1, h2.2, h3⟩
    · exact ih h

lemma foldChars_fix {s : Str}
    (h : ∀ d ∈ s, pyLower d = d ∧ nfdChar d = [d] ∧ isMn d = false) :
    foldChars s = s := by
  induction s with
  | nil => rfl
  | cons c s ih =>
    have hc := h c (by simp)
    rw [foldChars_cons]
    have hoc : outChar c = [c] := by
      simp [outChar, hc.1, hc.2.1, hc.2.2]
    rw [hoc, ih (fun d hd => h d (List.mem_cons_of_mem _ hd))]
    rfl

lemma splitGo_tokens : ∀ (l acc : Str), (∀ c ∈ acc, pyWS c = false) →
    ∀ t ∈ splitGo l acc, t ≠ [] ∧ ∀ c ∈ t, pyWS c = false ∧ (c ∈ l ∨ c ∈ acc) := by
  intro l
  induction l with
  | nil =>
    intro acc hacc t ht
    by_cases he : acc.isEmpty
    · simp [splitGo, he] at ht
    · simp [splitGo, he] at ht
      subst ht
      refine ⟨by simpa using fun h => he (by simp [h, List.isEmpty_iff]), ?_⟩
      intro c hc
      have hcacc : c ∈ acc := by simpa using hc
      exact ⟨hacc c hcacc, Or.inr hcacc⟩
  | cons a l ih =>
    intro acc hacc t ht
    by_cases hw : pyWS a
    · by_cases he : acc.isEmpty
      · rw [splitGo, if_pos hw, if_pos he] at ht
        have := ih [] (by simp) t ht
        exact ⟨this.1, fun c hc => ⟨(this.2 c hc).1, by
          rcases (this.2 c hc).2 with h | h
          · exact Or.inl (List.mem_cons_of_mem _ h)
          · simp at h⟩⟩
      · rw [splitGo, if_pos hw, if_neg he] at ht
        rcases List.mem_cons.1 ht with rfl | ht
        · refine ⟨by simpa using fun h => he (by simp [h, List.isEmpty_iff]), ?_⟩
          intro c hc
          have hcacc : c ∈ acc := by simpa using hc
          exact ⟨hacc c hcacc, Or.inr hcacc⟩
        · have := ih [] (by simp) t ht
          exact ⟨this.1, fun c hc => ⟨(this.2 c hc).1, by
            rcases (this.2 c hc).2 with h | h
            · exact Or.inl (List.mem_cons_of_mem _ h)
            · simp at h⟩⟩
    · rw [splitGo, if_neg hw] at ht
      have := ih (a :: acc)
        (fun c hc => by
          rcases List.mem_cons.1 hc with rfl | hc
          · simpa using hw
          · exact hacc c hc) t ht
      refine ⟨this.1, fun c hc => ⟨(this.2 c hc).1, ?_⟩⟩
      rcases (this.2 c hc).2 with h | h
      · exact Or.inl (List.mem_cons_of_mem _ h)
      · rcases List.mem_cons.1 h with rfl | h
        · exact Or.inl (List.mem_cons_self _ _)
        · exact Or.inr h

lemma splitGo_append_run : ∀ (t l acc : Str), (∀ c ∈ t, pyWS c = false) →
    splitGo (t ++ l) acc = splitGo l (t.reverse ++ acc) := by
  intro t
  induction t with
  | nil => intro l acc _; simp
  | cons a t ih =>
    intro l acc h
    have ha : pyWS a = false := h a (List.mem_cons_self _ _)
    rw [List.cons_append, splitGo, if_neg (by simp [ha])]
    rw [ih l (a :: acc) (fun c hc => h c (List.mem_cons_of_mem _ hc))]
    simp

lemma joinSp_two (t t' : Str) (ts : List Str) :
    joinSp (t :: t' :: ts) = t ++ ' ' :: joinSp (t' :: ts) := rfl

lemma split_join : ∀ ts : List Str, (∀ t ∈ ts, t ≠ [] ∧ ∀ c ∈ t, pyWS c = false) →
    pySplit (joinSp ts) = ts := by
  intro ts
  induction ts with
  | nil => intro _; rfl
  | cons t ts ih =>
    intro h
    have ht := h t (List.mem_cons_self _ _)
    cases ts with
    | nil =>
      show splitGo (joinSp [t]) [] = [t]
      have : joinSp [t] = t ++ [] := by simp [joinSp]
      rw [this, splitGo_append_run t [] [] ht.2]
      rw [List.append_nil]
      have hne : ¬ t.reverse.isEmpty := by
        simpa [List.isEmpty_iff] using ht.1
      simp [splitGo, hne]
    | cons t' ts' =>
      rw [joinSp_two]
      show splitGo (t ++ ' ' :: joinSp (t' :: ts')) [] = t :: t' :: ts'
      rw [splitGo_append_run t _ [] ht.2, List.append_nil]
      have hne : ¬ t.reverse.isEmpty := by
        simpa [List.isEmpty_iff] using ht.1
      rw [splitGo, if_pos (by decide), if_neg hne, List.reverse_reverse]
      show t :: pySplit (joinSp (t' :: ts')) = t :: t' :: ts'
      rw [ih (fun u hu => h u (List.mem_cons_of_mem _ hu))]

lemma dropWhile_head_fix {l : Str} (h : ∀ c, l.head? = some c → pyWS c = false) :
    l.dropWhile pyWS = l := by
  cases l with
  | nil => rfl
  | cons c cs =>
    have := h c rfl
    simp [List.dropWhile_cons, this]

lemma stripWS_fix {l : Str}
    (h1 : ∀ c, l.head? = some c → pyWS c = false)
    (h2 : ∀ c, l.reverse.head? = some c → pyWS c = false) :
    stripWS l = l := by
  unfold stripWS
  rw [dropWhile_head_fix h1, dropWhile_head_fix h2, List.reverse_reverse]

lemma head?_append_left {l1 l2 : Str} {c : Char} (h : l1.head? = some c) :
    (l1 ++ l2).head? = some c := by
  cases l1 with
  | nil => simp at h
  | cons a t => simpa using h

lemma mem_reverse_head? {l : Str} {c : Char} (h : l.head? = some c) : c ∈ l := by
  cases l with
  | nil => simp at h
  | cons a t =>
    have : a = c := by simpa using h
    simp [this.symm]

lemma joinSp_head? : ∀ (ts : List Str), (∀ t ∈ ts, t ≠ []) →
    ∀ c, (joinSp ts).head? = some c → ∃ t ∈ ts, c ∈ t := by
  intro ts
  cases ts with
  | nil => intro _ c hc; simp [joinSp] at hc
  | cons t ts =>
    intro h c hc
    have ht : t ≠ [] := h t (List.mem_cons_self _ _)
    cases t with
    | nil => exact absurd rfl ht
    | cons a u =>
      refine ⟨a :: u, List.mem_cons_self _ _, ?_⟩
      cases ts with
      | nil =>
        have : a = c := by simpa [joinSp] using hc
        simp [this.symm]
      | cons t' ts' =>
        rw [joinSp_two] at hc
        have : a = c := by simpa using hc
        simp [this.symm]

lemma joinSp_last : ∀ (ts : List Str), (∀ t ∈ ts, t ≠ []) →
    ∀ c, (joinSp ts).reverse.head? = some c → ∃ t ∈ ts, c ∈ t := by
  intro ts
  induction ts with
  | nil => intro _ c hc; simp [joinSp] at hc
  | cons t ts ih =>
    intro h c hc
    cases ts with
    | nil =>
      refine ⟨t, List.mem_cons_self _ _, ?_⟩
      have := mem_reverse_head? hc
      simpa using this
    | cons t' ts' =>
      rw [joinSp_two, List.reverse_append] at hc
      have hJne : joinSp (t' :: ts') ≠ [] := by
        have ht' : t' ≠ [] := h t' (List.mem_cons_of_mem _ (List.mem_cons_self _ _))
        cases ts' with
        | nil => simpa [joinSp]
        | cons u us =>
          rw [joinSp_two]
          cases t' with
          | nil => exact absurd rfl ht'
          | cons b v => simp
      have hrev : (' ' :: joinSp (t' :: ts')).reverse.head? = some c := by
        cases hr : (' ' :: joinSp (t' :: ts')).reverse with
        | nil => simp at hr
        | cons x xs =>
          rw [hr] at hc
          have : ((x :: xs) ++ t.reverse).head? = some x := rfl
          rw [this] at hc
          simp [hr, hc]
      rw [List.reverse_cons] at hrev
      have hJrev : (joinSp (t' :: ts')).reverse ≠ [] := by
        simpa using hJne
      have : (joinSp (t' :: ts')).reverse.head? = some c := by
        cases hr : (joinSp (t' :: ts')).reverse with
        | nil => exact absurd hr hJrev
        | cons x xs =>
          rw [hr] at hrev
          have hx : x = c := by simpa using hrev
          simp [hx]
      rcases ih (fun u hu => h u (List.mem_cons_of_mem _ hu)) c this with ⟨u, hu, hcu⟩
      exact ⟨u, List.mem_cons_of_mem _ hu, hcu⟩

lemma mem_joinSp : ∀ (ts : List Str) (c : Char), c ∈ joinSp ts →
    (∃ t ∈ ts, c ∈ t) ∨ c = ' ' := by
  intro ts
  induction ts with
  | nil => intro c hc; simp [joinSp] at hc
  | cons t ts ih =>
    intro c hc
    cases ts with
    | nil => exact Or.inl ⟨t, List.mem_cons_self _ _, by simpa [joinSp] using hc⟩
    | cons t' ts' =>
      rw [joinSp_two] at hc
      rcases List.mem_append.1 hc with h | h
      · exact Or.inl ⟨t, List.mem_cons_self _ _, h⟩
      · rcases List.mem_cons.1 h with rfl | h
        · exact Or.inr rfl
        · rcases ih c h with ⟨u, hu, hcu⟩ | rfl
          · exact Or.inl ⟨u, List.mem_cons_of_mem _ hu, hcu⟩
          · exact Or.inr rfl

lemma normString_fix (s : Str) : normString (normString s) = normString s := by
  have hns : ∀ x : Str, normString x = joinSp (pySplit (foldChars (stripWS x))) :=
    fun x => rfl
  set l := foldChars (stripWS s) with hl
  set ts := pySplit l with hts
  have htok : ∀ t ∈ ts, t ≠ [] ∧ ∀ c ∈ t, pyWS c = false ∧ c ∈ l := by
    intro t ht
    have h := splitGo_tokens l [] (by simp) t ht
    exact ⟨h.1, fun c hc => ⟨(h.2 c hc).1, by
      rcases (h.2 c hc).2 with h' | h'
      · exact h'
      · simp at h'⟩⟩
  have hne : ∀ t ∈ ts, t ≠ [] := fun t ht => (htok t ht).1
  have hnws : ∀ t ∈ ts, ∀ c ∈ t, pyWS c = false :=
    fun t ht c hc => ((htok t ht).2 c hc).1
  have hchars : ∀ c ∈ joinSp ts,
      pyLower c = c ∧ nfdChar c = [c] ∧ isMn c = false := by
    intro c hc
    rcases mem_joinSp ts c hc with ⟨t, ht, hct⟩ | rfl
    · exact foldChars_chars ((htok t ht).2 c hct).2
    · exact ⟨by decide, by decide, by decide⟩
  have hstrip : stripWS (joinSp ts) = joinSp ts := by
    refine stripWS_fix ?_ ?_
    · intro c hc
      rcases joinSp_head? ts hne c hc with ⟨t, ht, hct⟩
      exact hnws t ht c hct
    · intro c hc
      rcases joinSp_last ts hne c hc with ⟨t, ht, hct⟩
      exact hnws t ht c hct
  have hfold : foldChars (joinSp ts) = joinSp ts := foldChars_fix hchars
  have hsplit : pySplit (joinSp ts) = ts := by
    refine split_join ts ?_
    intro t ht
    exact ⟨hne t ht, fun c hc => hnws t ht c hc⟩
  have hr : normString s = joinSp ts := hns s
  rw [hr, hns (joinSp ts), hstrip, hfold, hsplit]

/-- C7: norm_str is idempotent on strings: normalising twice equals
normalising once. -/
theorem norm_str_idempotent (s : Str) :
    norm_str (.str (norm_str (.str s))) = norm_str (.str s) := by
  show normString (normString s) = normString s
  exact normString_fix s

/-- C3 counterexample: the hyphenated and the space-separated spellings of
the same region name normalise to different join keys, because norm_str
keeps punctuation: the claim that all three spellings coincide fails. -/
theorem norm_str_hyphen_counterexample :
    norm_str (.str "Île-de-France".data) ≠ norm_str (.str "ile de france".data) := by
  decide

/-- C3 amended: join keys are insensitive to case, accents and surrounding
whitespace, so the two hyphenated spellings agree, but internal hyphens are
preserved, so the space-separated spelling yields a different key. -/
theorem norm_str_case_accent_insensitive :
    norm_str (.str "Île-de-France".data) = norm_str (.str "  ÎLE-DE-FRANCE ".data) ∧
    norm_str (.str "Île-de-France".data) = "ile-de-france".data ∧
    norm_str (.str "ile de france".data) = "ile de france".data := by
  decide

/-- C9: norm_str is a total function: a null input yields the empty string
(short-circuiting before the str() coercion, which would render None as
the non-empty string none), and every non-null value is coerced with
str() and then normalised. -/
theorem norm_str_none_and_coercion :
    norm_str .null = [] ∧
    (∀ v : JVal, v ≠ .null → norm_str v = normString (pyStrJ v)) ∧
    normString (pyStrJ .null) ≠ [] := by
  refine ⟨rfl, ?_, by decide⟩
  intro v hv
  cases v with
  | null => exact absurd rfl hv
  | jbool b => rfl
  | num q => rfl
  | str s => rfl
  | arr l => rfl
  | obj l => rfl

/-- Witness for C9's quantified part at a concrete non-null, non-string
value. -/
theorem norm_str_none_and_coercion_witness :
    norm_str (JVal.num 42) = normString (pyStrJ (JVal.num 42)) :=
  norm_str_none_and_coercion.2.1 (JVal.num 42) (fun h => JVal.noConfusion h)

/- Lemmas about GeoJSON key detection and annotation. -/

lemma aset_lookup_self (props : List (Str × JVal)) (k : Str) (v : JVal) :
    alookupV (aset props k v) k = some v := by
  induction props with
  | nil => simp [aset, alookupV]
  | cons p t ih =>
    obtain ⟨k', v'⟩ := p
    by_cases h : k' = k
    · subst h
      simp [aset, alookupV]
    · simp [aset, alookupV, h, ih]

lemma aset_lookup_other (props : List (Str × JVal)) (k k2 : Str) (v : JVal)
    (h : k2 ≠ k) : alookupV (aset props k v) k2 = alookupV props k2 := by
  induction props with
  | nil =>
    have hne : ¬ (k = k2) := fun hh => h hh.symm
    simp [aset, alookupV, hne]
  | cons p t ih =>
    obtain ⟨k', v'⟩ := p
    by_cases hk : k' = k
    · subst hk
      have hne : ¬ (k' = k2) := fun hh => h hh.symm
      have e1 : aset ((k', v') :: t) k' v = (k', v) :: t := by simp [aset]
      rw [e1]
      simp only [alookupV, if_neg hne]
    · simp [aset, alookupV, hk, ih]

/-- C4 counterexample: on a first feature whose only property is numeric,
the code returns that property name, while the claimed algorithm falls
back to the default field name. -/
theorem guess_key_fallback_counterexample :
    guess_geojson_region_key geoSampleCode ≠ specGuessKeyClaim geoSampleCode ∧
    guess_geojson_region_key geoSampleCode = "code".data ∧
    specGuessKeyClaim geoSampleCode = "nom".data := by
  decide

/-- C4 amended: for a collection with at least one feature, key detection
follows the candidate priority list, then the first property whose value
is a string with non-whitespace content, then the first property name if
any property exists, and only otherwise the default field name. -/
theorem guess_key_algorithm_amended (g : GeoJSON) (h : g.features ≠ []) :
    guess_geojson_region_key g = specGuessKeyAmended g := by
  unfold guess_geojson_region_key specGuessKeyAmended
  cases hf : g.features with
  | nil => exact absurd hf h
  | cons f0 fs =>
    cases hc : findCandidateKey (propsFields f0.properties) with
    | some k =>
      simp only [hc]
      simp [Option.orElse]
    | none =>
      cases ht : firstTextKey (propsFields f0.properties) with
      | some k =>
        simp only [hc, ht]
        simp [Option.orElse]
      | none =>
        simp only [hc, ht]
        simp [Option.orElse]

/-- Witness for C4's amended theorem on a concrete one-feature input. -/
theorem guess_key_algorithm_amended_witness :
    guess_geojson_region_key geoSampleCode = specGuessKeyAmended geoSampleCode :=
  guess_key_algorithm_amended geoSampleCode (List.cons_ne_nil _ _)

/-- The first feature's annotation outcome on each collection is total to
state through getD with this inert default. -/
def emptyGeoRes : GeoJSON × Str := (⟨[]⟩, [])

lemma annotateFeatures_spec (key : Str) : ∀ fs : List Feature,
    (annotateFeatures key fs = none ↔ ∃ f ∈ fs, f.properties = .nullv) ∧
    (∀ fs', annotateFeatures key fs = some fs' →
      fs'.length = fs.length ∧
      ∀ i (h : i < fs.length) (h' : i < fs'.length),
        annotateFeatureV key (fs.get ⟨i, h⟩) = some (fs'.get ⟨i, h'⟩)) := by
  intro fs
  induction fs with
  | nil =>
    constructor
    · constructor
      · intro hh
        exact Option.noConfusion hh
      · rintro ⟨f, hf, -⟩
        exact absurd hf (List.not_mem_nil f)
    · intro fs' hh
      rcases Option.some.inj hh with rfl
      exact ⟨rfl, fun i h => absurd h (by simp)⟩
  | cons f fs ih =>
    rw [annotateFeatures]
    cases ha : annotateFeatureV key f with
    | none =>
      have hnull : f.properties = .nullv := by
        unfold annotateFeatureV at ha
        cases hp : f.properties with
        | nullv => rfl
        | absent => rw [hp] at ha; exact Option.noConfusion ha
        | dict pf => rw [hp] at ha; exact Option.noConfusion ha
      constructor
      · exact ⟨fun _ => ⟨f, List.mem_cons_self _ _, hnull⟩, fun _ => rfl⟩
      · intro fs' hh
        exact Option.noConfusion hh
    | some f' =>
      constructor
      · constructor
        · intro hh
          cases hr : annotateFeatures key fs with
          | none =>
            rcases (ih.1).1 hr with ⟨u, hu, hup⟩
            exact ⟨u, List.mem_cons_of_mem _ hu, hup⟩
          | some fs1 => rw [hr] at hh; exact Option.noConfusion hh
        · rintro ⟨u, hu, hup⟩
          rcases List.mem_cons.1 hu with rfl | hu
          · unfold annotateFeatureV at ha
            rw [hup] at ha
            exact Option.noConfusion ha
          · rw [(ih.1).2 ⟨u, hu, hup⟩]
            rfl
      · intro fs' hh
        cases hr : annotateFeatures key fs with
        | none => rw [hr] at hh; exact Option.noConfusion hh
        | some fs1 =>
          rw [hr] at hh
          have he : f' :: fs1 = fs' := Option.some.inj hh
          subst he
          have hrec := (ih.2) fs1 hr
          refine ⟨by simp [hrec.1], ?_⟩
          intro i h h'
          cases i with
          | zero => exact ha
          | succ j =>
            exact hrec.2 j (Nat.lt_of_succ_lt_succ h) (Nat.lt_of_succ_lt_succ h')

lemma annotated_props {key : Str} {f f' : Feature}
    (hi : annotateFeatureV key f = some f') :
    alookupV (propsFields f'.properties) "region_norm".data
      = some (.str (norm_str ((alookupV (propsFields f.properties) key).getD
          (.str [])))) ∧
    ∀ k2, k2 ≠ "region_norm".data →
      alookupV (propsFields f'.properties) k2
        = alookupV (propsFields f.properties) k2 := by
  obtain ⟨pe, geo⟩ := f
  cases pe with
  | nullv => exact Option.noConfusion hi
  | absent =>
    have hout : (⟨PropsEntry.dict (aset (propsFields PropsEntry.absent)
        "region_norm".data (.str (norm_str ((alookupV (propsFields PropsEntry.absent)
          key).getD (.str []))))), geo⟩ : Feature) = f' := Option.some.inj hi
    rw [← hout]
    exact ⟨aset_lookup_self _ _ _, fun k2 hk2 => aset_lookup_other _ _ _ _ hk2⟩
  | dict pf =>
    have hout : (⟨PropsEntry.dict (aset (propsFields (PropsEntry.dict pf))
        "region_norm".data (.str (norm_str ((alookupV (propsFields (PropsEntry.dict pf))
          key).getD (.str []))))), geo⟩ : Feature) = f' := Option.some.inj hi
    rw [← hout]
    exact ⟨aset_lookup_self _ _ _, fun k2 hk2 => aset_lookup_other _ _ _ _ hk2⟩

/-- C5 counterexample: a source feature that already carries region_norm
has that property value silently replaced by the annotation. -/
theorem region_norm_overwrite_counterexample :
    propStr (propsFields ((geoSampleKeep.features.headD ⟨.absent, .null⟩).properties))
        "region_norm".data = some "KEEP".data ∧
    propStr (propsFields ((((geojson_with_norm_names geoSampleKeep).getD
        emptyGeoRes).1.features.headD ⟨.absent, .null⟩).properties))
        "region_norm".data = some "bretagne".data ∧
    "KEEP".data ≠ "bretagne".data := by
  decide

/-- C5 amended: the call raises exactly when some feature's properties
entry is JSON null (setdefault returns None there and the region_norm
assignment fails); on every other collection it succeeds, and then every
output feature stores the normalised name under the fixed property name
region_norm (overwriting any existing binding of that name) while every
property under any other name keeps its value. -/
theorem geojson_annotation_amended (g : GeoJSON) :
    (geojson_with_norm_names g = none ↔
      ∃ f ∈ g.features, f.properties = PropsEntry.nullv) ∧
    (∀ gout key', geojson_with_norm_names g = some (gout, key') →
      key' = guess_geojson_region_key g ∧
      gout.features.length = g.features.length ∧
      ∀ i (h : i < g.features.length) (h' : i < gout.features.length),
        alookupV (propsFields ((gout.features.get ⟨i, h'⟩).properties))
            "region_norm".data
          = some (.str (norm_str ((alookupV
              (propsFields ((g.features.get ⟨i, h⟩).properties))
              (guess_geojson_region_key g)).getD (.str [])))) ∧
        ∀ k2, k2 ≠ "region_norm".data →
          alookupV (propsFields ((gout.features.get ⟨i, h'⟩).properties)) k2
            = alookupV (propsFields ((g.features.get ⟨i, h⟩).properties)) k2) := by
  have hspec := annotateFeatures_spec (guess_geojson_region_key g) g.features
  have hgw : geojson_with_norm_names g
      = (annotateFeatures (guess_geojson_region_key g) g.features).map
          (fun fs => ((⟨fs⟩ : GeoJSON), guess_geojson_region_key g)) := rfl
  constructor
  · constructor
    · intro hh
      apply hspec.1.1
      cases hr : annotateFeatures (guess_geojson_region_key g) g.features with
      | none => rfl
      | some fs => rw [hgw, hr] at hh; exact Option.noConfusion hh
    · intro hh
      rw [hgw, hspec.1.2 hh]
      rfl
  · intro gout key' hrun
    rw [hgw] at hrun
    cases hr : annotateFeatures (guess_geojson_region_key g) g.features with
    | none =>
      rw [hr] at hrun
      exact Option.noConfusion hrun
    | some fs' =>
      rw [hr] at hrun
      have he : ((⟨fs'⟩ : GeoJSON), guess_geojson_region_key g) = (gout, key') :=
        Option.some.inj hrun
      injection he with e1 e2
      subst e1
      subst e2
      have hrec := hspec.2 fs' hr
      refine ⟨rfl, hrec.1, ?_⟩
      intro i h h'
      exact annotated_props (hrec.2 i h (by rw [hrec.1]; exact h))

/-- Witness for C5's amended theorem on a concrete one-feature input. -/
theorem geojson_annotation_amended_witness :
    alookupV (propsFields (((((geojson_with_norm_names geoSampleNom).getD
          emptyGeoRes).1.features).get ⟨0, by decide⟩).properties))
        "region_norm".data
      = some (.str (norm_str ((alookupV
          (propsFields ((geoSampleNom.features.get ⟨0, by decide⟩).properties))
          (guess_geojson_region_key geoSampleNom)).getD (.str [])))) :=
  (((geojson_annotation_amended geoSampleNom).2
      ((geojson_with_norm_names geoSampleNom).getD emptyGeoRes).1
      ((geojson_with_norm_names geoSampleNom).getD emptyGeoRes).2 rfl).2.2 0
    (by decide) (by decide)).1

/- The loader and diagnostics theorems. -/

/-- C8: load_data returns exactly the rows whose two measures are both
non-null after coercion, each extended with the normalised region key;
rows with a null measure are excluded rather than zeroed, and every
returned row has non-null measures. -/
theorem load_data_excludes_null_measures (df : List CsvRow) :
    (∀ r ∈ load_data df, r.toCsvRow.nombre.isSome = true ∧
        r.toCsvRow.insee_pop.isSome = true) ∧
    (∀ r : LoadedRow, r ∈ load_data df ↔
        (r.toCsvRow ∈ df ∧ r.toCsvRow.nombre.isSome = true ∧
         r.toCsvRow.insee_pop.isSome = true ∧
         r.nom_region_norm = norm_str r.toCsvRow.nom_region)) := by
  constructor
  · intro r hr
    rcases List.mem_map.1 hr with ⟨c, hc, rfl⟩
    have h2 := (List.mem_filter.1 hc).2
    simp only [Bool.and_eq_true] at h2
    exact h2
  · intro r
    constructor
    · intro hr
      rcases List.mem_map.1 hr with ⟨c, hc, rfl⟩
      rcases List.mem_filter.1 hc with ⟨hmem, hff⟩
      simp only [Bool.and_eq_true] at hff
      exact ⟨hmem, hff.1, hff.2, rfl⟩
    · rintro ⟨hmem, h1, h2, h3⟩
      refine List.mem_map.2 ⟨r.toCsvRow, List.mem_filter.2 ⟨hmem, ?_⟩, ?_⟩
      · simp [h1, h2]
      · cases r with
        | mk c nrm =>
          simp only at h3
          rw [h3]

/-- Witness for C8 at a one-row table with both measures present. -/
theorem load_data_excludes_null_measures_witness :
    loadedSample.toCsvRow.nombre.isSome = true ∧
    loadedSample.toCsvRow.insee_pop.isSome = true :=
  (load_data_excludes_null_measures [csvSample]).1 loadedSample
    (by rw [(by rfl : load_data [csvSample] = [loadedSample])]
        exact List.mem_singleton.mpr rfl)

/-- C10 counterexample: a metrics column containing the empty normalised
key is counted in n_regions_data although the count of distinct non-empty
keys is zero (the data side never filters out empties, unlike the geo
side), and the empty key even shows up in missing_in_geo. -/
theorem diagnostics_empty_key_counterexample :
    (compute_matching_diagnostics [some []] ⟨[]⟩).n_regions_data = 1 ∧
    specNonEmptyKeyCount [some []] = 0 ∧
    (compute_matching_diagnostics [some []] ⟨[]⟩).missing_in_geo = [([] : Str)] := by
  decide

/-- C10 amended: the diagnostics report the two asymmetric differences as
sorted duplicate-free lists (keys present in the data but not among the
non-empty geo keys, and conversely), n_regions_data counts the distinct
non-null data keys (the empty string included), and n_regions_geo counts
the distinct non-empty geo keys; the function is total, also on empty
inputs. -/
theorem matching_diagnostics_amended (normCol : List (Option Str)) (geo : GeoJSON) :
    (List.Sorted (· ≤ ·) (compute_matching_diagnostics normCol geo).missing_in_geo ∧
      (compute_matching_diagnostics normCol geo).missing_in_geo.Nodup ∧
      ∀ k, k ∈ (compute_matching_diagnostics normCol geo).missing_in_geo ↔
        (some k ∈ normCol ∧ ¬ ((∃ f ∈ geo.features, geoNormVal f = k) ∧ k ≠ []))) ∧
    (List.Sorted (· ≤ ·) (compute_matching_diagnostics normCol geo).missing_in_data ∧
      (compute_matching_diagnostics normCol geo).missing_in_data.Nodup ∧
      ∀ k, k ∈ (compute_matching_diagnostics normCol geo).missing_in_data ↔
        (((∃ f ∈ geo.features, geoNormVal f = k) ∧ k ≠ []) ∧ ¬ some k ∈ normCol)) ∧
    (compute_matching_diagnostics normCol geo).n_regions_data
      = (normCol.filterMap id).toFinset.card ∧
    (compute_matching_diagnostics normCol geo).n_regions_geo
      = ((geo.features.map geoNormVal).filter (fun r => !r.isEmpty)).toFinset.card := by
  have hdata : ∀ k, k ∈ (normCol.filterMap id).dedup ↔ some k ∈ normCol := by
    intro k
    rw [List.mem_dedup, List.mem_filterMap]
    constructor
    · rintro ⟨a, ha, rfl⟩
      exact ha
    · intro hk
      exact ⟨some k, hk, rfl⟩
  have hgeo : ∀ k, k ∈ ((geo.features.map geoNormVal).dedup).filter
      (fun r => !r.isEmpty) ↔ ((∃ f ∈ geo.features, geoNormVal f = k) ∧ k ≠ []) := by
    intro k
    rw [List.mem_filter, List.mem_dedup, List.mem_map]
    simp [List.isEmpty_iff]
  refine ⟨⟨?_, ?_, ?_⟩, ⟨?_, ?_, ?_⟩, ?_, ?_⟩
  · exact List.sorted_insertionSort _ _
  · exact ((List.perm_insertionSort _ _).nodup_iff).2
      (((normCol.filterMap id).nodup_dedup).filter _)
  · intro k
    show k ∈ pySorted _ ↔ _
    rw [pySorted, List.mem_insertionSort, List.mem_filter]
    simp only [Bool.not_eq_eq_eq_not, Bool.not_true, decide_eq_false_iff_not]
    rw [hdata k]
    constructor
    · rintro ⟨h1, h2⟩
      exact ⟨h1, fun hh => h2 ((hgeo k).2 hh)⟩
    · rintro ⟨h1, h2⟩
      exact ⟨h1, fun hh => h2 ((hgeo k).1 hh)⟩
  · exact List.sorted_insertionSort _ _
  · exact ((List.perm_insertionSort _ _).nodup_iff).2
      ((((geo.features.map geoNormVal).nodup_dedup).filter _).filter _)
  · intro k
    show k ∈ pySorted _ ↔ _
    rw [pySorted, List.mem_insertionSort, List.mem_filter]
    simp only [Bool.not_eq_eq_eq_not, Bool.not_true, decide_eq_false_iff_not]
    rw [hgeo k]
    constructor
    · rintro ⟨h1, h2⟩
      exact ⟨h1, fun hh => h2 ((hdata k).2 hh)⟩
    · rintro ⟨h1, h2⟩
      exact ⟨h1, fun hh => h2 ((hdata k).1 hh)⟩
  · show ((normCol.filterMap id).dedup).length = _
    rw [List.card_toFinset]
  · show (((geo.features.map geoNormVal).dedup).filter (fun r => !r.isEmpty)).length = _
    have hnd : (((geo.features.map geoNormVal).dedup).filter
        (fun r => !r.isEmpty)).Nodup :=
      ((geo.features.map geoNormVal).nodup_dedup).filter _
    rw [← List.toFinset_card_of_nodup hnd]
    congr 1
    apply Finset.ext
    intro k
    rw [List.mem_toFinset, List.mem_toFinset, hgeo k, List.mem_filter, List.mem_map]
    simp [List.isEmpty_iff]

/- Lemmas about the metrics builder. -/

lemma variationPass_mem {l : List GRow} {seen : List (Str × Option Frac)} {r : GRow}
    (hr : r ∈ variationPass l seen) :
    ∃ r' ∈ l, ∃ v : Frac, r = { r' with variation_region := v } := by
  induction l generalizing seen with
  | nil => simp [variationPass] at hr
  | cons a l ih =>
    simp only [variationPass] at hr
    rcases List.mem_cons.1 hr with rfl | hr
    · exact ⟨a, List.mem_cons_self _ _, _, rfl⟩
    · rcases ih hr with ⟨r', hr', v, rfl⟩
      exact ⟨r', List.mem_cons_of_mem _ hr', v, rfl⟩

lemma variationPass_mem_of {l : List GRow} {r' : GRow} (hr' : r' ∈ l) :
    ∀ seen, ∃ v : Frac, { r' with variation_region := v } ∈ variationPass l seen := by
  induction l with
  | nil => simp at hr'
  | cons a l ih =>
    intro seen
    rcases List.mem_cons.1 hr' with rfl | hm
    · exact ⟨_, List.mem_cons_self _ _⟩
    · rcases ih hm ((a.nom_region, a.taux_region_pour_mille) :: seen) with ⟨v, hv⟩
      exact ⟨v, by simp only [variationPass]; exact List.mem_cons_of_mem _ hv⟩

lemma groupKeys_src {df : List DRow} {k : GroupKey} (hk : k ∈ groupKeys df) :
    ∃ r ∈ df, r.nom_region = k.1 ∧ r.nom_region_norm = k.2.1 ∧ r.annee = some k.2.2 := by
  rw [groupKeys, List.mem_insertionSort, List.mem_dedup, List.mem_filterMap] at hk
  rcases hk with ⟨r, hr, hrk⟩
  rw [rowKey] at hrk
  cases ha : r.annee with
  | none => rw [ha] at hrk; simp at hrk
  | some y =>
    rw [ha] at hrk
    have hrk' : (r.nom_region, r.nom_region_norm, y) = k := Option.some.inj hrk
    rcases hrk' with rfl
    exact ⟨r, hr, rfl, rfl, ha⟩

lemma groupKeys_of_row {df : List DRow} {r : DRow} {y : Int}
    (hr : r ∈ df) (hy : r.annee = some y) :
    (r.nom_region, r.nom_region_norm, y) ∈ groupKeys df := by
  rw [groupKeys, List.mem_insertionSort, List.mem_dedup, List.mem_filterMap]
  exact ⟨r, hr, by rw [rowKey, hy]; rfl⟩

/-- C1: every output row of build_region_metrics carries its group's
summed incident count; its population is the group's sum, nulled exactly
when that sum is zero, in which case the rate is null as well (the
division is never applied: the rate is only formed from a non-zero
population, as 1000 times count over population); and every input row
with a non-null year yields a group. -/
theorem build_region_metrics_rate (df : List DRow) :
    (∀ r ∈ build_region_metrics df,
      r.nb_region = nbSum df (r.nom_region, r.nom_region_norm, r.annee) ∧
      ((popSum df (r.nom_region, r.nom_region_norm, r.annee)).n = 0 →
        r.pop_region = none ∧ r.taux_region_pour_mille = none) ∧
      ((popSum df (r.nom_region, r.nom_region_norm, r.annee)).n ≠ 0 →
        r.pop_region = some (popSum df (r.nom_region, r.nom_region_norm, r.annee)) ∧
        r.taux_region_pour_mille
          = some (1000 * (nbSum df (r.nom_region, r.nom_region_norm, r.annee)
              / popSum df (r.nom_region, r.nom_region_norm, r.annee))))) ∧
    (∀ r0 ∈ df, ∀ y : Int, r0.annee = some y →
      ∃ r ∈ build_region_metrics df,
        r.nom_region = r0.nom_region ∧ r.nom_region_norm = r0.nom_region_norm ∧
        r.annee = y) := by
  constructor
  · intro r hr
    rw [build_region_metrics] at hr
    rcases variationPass_mem hr with ⟨r', hr', v, rfl⟩
    rw [List.mem_insertionSort] at hr'
    rcases List.mem_map.1 hr' with ⟨k, hk, rfl⟩
    obtain ⟨k1, k2, k3⟩ := k
    refine ⟨rfl, ?_, ?_⟩
    · intro hz
      have hz' : (popSum df (k1, k2, k3)).n = 0 := hz
      constructor
      · show (if (popSum df (k1, k2, k3)).n = 0 then none
            else some (popSum df (k1, k2, k3))) = none
        rw [if_pos hz']
      · show Option.map (fun p => 1000 * (nbSum df (k1, k2, k3) / p))
            (if (popSum df (k1, k2, k3)).n = 0 then none
             else some (popSum df (k1, k2, k3))) = none
        rw [if_pos hz']
        rfl
    · intro hz
      have hz' : (popSum df (k1, k2, k3)).n ≠ 0 := hz
      constructor
      · show (if (popSum df (k1, k2, k3)).n = 0 then none
            else some (popSum df (k1, k2, k3))) = some (popSum df (k1, k2, k3))
        rw [if_neg hz']
      · show Option.map (fun p => 1000 * (nbSum df (k1, k2, k3) / p))
            (if (popSum df (k1, k2, k3)).n = 0 then none
             else some (popSum df (k1, k2, k3)))
          = some (1000 * (nbSum df (k1, k2, k3) / popSum df (k1, k2, k3)))
        rw [if_neg hz']
        rfl
  · intro r0 hr0 y hy
    have hk := groupKeys_of_row hr0 hy
    have hmem : aggRow df (r0.nom_region, r0.nom_region_norm, y)
        ∈ List.insertionSort rowLe ((groupKeys df).map (aggRow df)) := by
      rw [List.mem_insertionSort]
      exact List.mem_map.2 ⟨_, hk, rfl⟩
    rcases variationPass_mem_of hmem [] with ⟨v, hv⟩
    rw [build_region_metrics]
    exact ⟨_, hv, rfl, rfl, rfl⟩

/-- Witness for C1 at the spec's two-row example table. -/
theorem build_region_metrics_rate_witness :
    ∃ r ∈ build_region_metrics dfSample,
      r.nom_region = "A".data ∧ r.nom_region_norm = "a".data ∧ r.annee = 2020 :=
  (build_region_metrics_rate dfSample).2
    ⟨"A".data, "a".data, some 2020, some 10, some 1000⟩
    (by decide) 2020 (by decide)

lemma variationPass_filter (R : Str) : ∀ (l : List GRow) (seen : List (Str × Option Frac)),
    (variationPass l seen).filter (fun r => decide (r.nom_region = R))
      = diffRegion ((tlookS seen R).getD none)
          (l.filter (fun r => decide (r.nom_region = R))) := by
  intro l
  induction l with
  | nil => intro seen; rfl
  | cons a l ih =>
    intro seen
    simp only [variationPass]
    by_cases hR : a.nom_region = R
    · subst hR
      rw [List.filter_cons_of_pos (by simp), List.filter_cons_of_pos (by simp)]
      simp only [diffRegion]
      rw [ih]
      simp [tlookS]
    · rw [List.filter_cons_of_neg (by simp [hR]), List.filter_cons_of_neg (by simp [hR])]
      rw [ih]
      have : tlookS ((a.nom_region, a.taux_region_pour_mille) :: seen) R = tlookS seen R := by
        simp [tlookS, hR]
      rw [this]

lemma diffRegion_length (prev : Option Frac) (l : List GRow) :
    (diffRegion prev l).length = l.length := by
  induction l generalizing prev with
  | nil => rfl
  | cons a l ih => simp only [diffRegion, List.length_cons, ih]

lemma diffRegion_map_annee : ∀ (prev : Option Frac) (l : List GRow),
    (diffRegion prev l).map (fun r => r.annee) = l.map (fun r => r.annee) := by
  intro prev l
  induction l generalizing prev with
  | nil => rfl
  | cons a l ih => simp only [diffRegion, List.map_cons, ih]

lemma diffRegion_first (l : List GRow) (h : 0 < (diffRegion none l).length) :
    ((diffRegion none l).get ⟨0, h⟩).variation_region = 0 := by
  cases l with
  | nil => simp [diffRegion] at h
  | cons a l =>
    obtain ⟨nr, nn, an, nb, pr, tx, vr⟩ := a
    cases tx <;> rfl

lemma diffRegion_step : ∀ (prev : Option Frac) (l : List GRow) (i : Nat)
    (h1 : i + 1 < (diffRegion prev l).length) (h0 : i < (diffRegion prev l).length)
    (a b : Frac),
    ((diffRegion prev l).get ⟨i + 1, h1⟩).taux_region_pour_mille = some a →
    ((diffRegion prev l).get ⟨i, h0⟩).taux_region_pour_mille = some b →
    ((diffRegion prev l).get ⟨i + 1, h1⟩).variation_region = a - b := by
  intro prev l
  induction l generalizing prev with
  | nil => intro i h1; simp [diffRegion] at h1
  | cons r rs ih =>
    intro i h1 h0 a b ha hb
    cases i with
    | zero =>
      have hb' : r.taux_region_pour_mille = some b := hb
      cases rs with
      | nil =>
        simp only [diffRegion, List.length_cons, List.length_nil] at h1
        exact absurd h1 (by decide)
      | cons s rs' =>
        have ha' : s.taux_region_pour_mille = some a := ha
        show (match s.taux_region_pour_mille, r.taux_region_pour_mille with
              | some x, some y => x - y
              | _, _ => 0) = a - b
        rw [ha', hb']
    | succ j =>
      exact ih r.taux_region_pour_mille j (Nat.lt_of_succ_lt_succ h1)
        (Nat.lt_of_succ_lt_succ h0) a b ha hb

lemma pairwise_filter_year (R : Str) : ∀ l : List GRow,
    List.Pairwise rowLe l →
    List.Pairwise (fun a b : GRow =>
      ¬(a.nom_region = b.nom_region ∧ a.annee = b.annee)) l →
    List.Pairwise (fun a b : GRow => a.annee < b.annee)
      (l.filter (fun r => decide (r.nom_region = R))) := by
  intro l
  induction l with
  | nil => intro _ _; simp
  | cons a l ih =>
    intro h1 h2
    rcases List.pairwise_cons.1 h1 with ⟨ha1, h1'⟩
    rcases List.pairwise_cons.1 h2 with ⟨ha2, h2'⟩
    by_cases hR : a.nom_region = R
    · rw [List.filter_cons_of_pos (by simp [hR])]
      refine List.pairwise_cons.2 ⟨?_, ih h1' h2'⟩
      intro b hb
      rcases List.mem_filter.1 hb with ⟨hbl, hbR⟩
      have hbR' : b.nom_region = R := by simpa using hbR
      have hle := ha1 b hbl
      have hne := ha2 b hbl
      rcases hle with hlt | ⟨heq, hy⟩
      · exact absurd (hR.trans hbR'.symm) (ne_of_lt hlt)
      · exact lt_of_le_of_ne hy (fun hyy => hne ⟨heq, hyy⟩)
    · rw [List.filter_cons_of_neg (by simp [hR])]
      exact ih h1' h2'

lemma groupKeys_pairwise (df : List DRow)
    (hcons : ∀ r ∈ df, ∀ r' ∈ df, r.nom_region = r'.nom_region →
        r.nom_region_norm = r'.nom_region_norm) :
    List.Pairwise (fun k k' : GroupKey => ¬(k.1 = k'.1 ∧ k.2.2 = k'.2.2))
      (groupKeys df) := by
  have hnd : (groupKeys df).Nodup := by
    rw [groupKeys]
    exact ((List.perm_insertionSort _ _).nodup_iff).2 (List.nodup_dedup _)
  refine List.Pairwise.imp_of_mem ?_ hnd
  intro k k' hk hk' hne hkk
  rcases groupKeys_src hk with ⟨r, hr, h1, h2, h3⟩
  rcases groupKeys_src hk' with ⟨r', hr', h1', h2', h3'⟩
  apply hne
  have hnorm : k.2.1 = k'.2.1 := by
    rw [← h2, ← h2']
    exact hcons r hr r' hr' (by rw [h1, h1', hkk.1])
  obtain ⟨ka, kn, ky⟩ := k
  obtain ⟨ka', kn', ky'⟩ := k'
  simp only at hkk hnorm
  rw [hkk.1, hnorm, hkk.2]

lemma metrics_sorted_pairs (df : List DRow)
    (hcons : ∀ r ∈ df, ∀ r' ∈ df, r.nom_region = r'.nom_region →
        r.nom_region_norm = r'.nom_region_norm) :
    List.Pairwise (fun a b : GRow =>
      ¬(a.nom_region = b.nom_region ∧ a.annee = b.annee))
      (List.insertionSort rowLe ((groupKeys df).map (aggRow df))) := by
  have hsym : ∀ {x y : GRow},
      (¬(x.nom_region = y.nom_region ∧ x.annee = y.annee)) →
      ¬(y.nom_region = x.nom_region ∧ y.annee = x.annee) :=
    fun hab h => hab ⟨h.1.symm, h.2.symm⟩
  refine ((List.perm_insertionSort _ _).pairwise_iff hsym).2 ?_
  rw [List.pairwise_map]
  exact groupKeys_pairwise df hcons

/-- C2: with the normalised key consistent per region (as the loader
guarantees), each region's rows appear with strictly ascending years; the
first row of a region has variation exactly zero (a number, not null);
and each later row whose rate and predecessor rate are both defined has
variation equal to this year's rate minus the immediately preceding
observed year's rate. -/
theorem build_region_metrics_variation (df : List DRow)
    (hcons : ∀ r ∈ df, ∀ r' ∈ df, r.nom_region = r'.nom_region →
        r.nom_region_norm = r'.nom_region_norm) (R : Str) :
    List.Pairwise (fun a b : GRow => a.annee < b.annee)
      ((build_region_metrics df).filter (fun r => decide (r.nom_region = R))) ∧
    (∀ h0 : 0 < ((build_region_metrics df).filter
        (fun r => decide (r.nom_region = R))).length,
      (((build_region_metrics df).filter
          (fun r => decide (r.nom_region = R))).get ⟨0, h0⟩).variation_region = 0) ∧
    (∀ (i : Nat)
      (h1 : i + 1 < ((build_region_metrics df).filter
        (fun r => decide (r.nom_region = R))).length)
      (h0 : i < ((build_region_metrics df).filter
        (fun r => decide (r.nom_region = R))).length) (a b : Frac),
      (((build_region_metrics df).filter
          (fun r => decide (r.nom_region = R))).get ⟨i + 1, h1⟩).taux_region_pour_mille
        = some a →
      (((build_region_metrics df).filter
          (fun r => decide (r.nom_region = R))).get ⟨i, h0⟩).taux_region_pour_mille
        = some b →
      (((build_region_metrics df).filter
          (fun r => decide (r.nom_region = R))).get ⟨i + 1, h1⟩).variation_region
        = a - b) := by
  have hfe : (build_region_metrics df).filter (fun r => decide (r.nom_region = R))
      = diffRegion none ((List.insertionSort rowLe
          ((groupKeys df).map (aggRow df))).filter
          (fun r => decide (r.nom_region = R))) := by
    rw [build_region_metrics]
    exact variationPass_filter R _ []
  rw [hfe]
  refine ⟨?_, ?_, ?_⟩
  · have hpl : List.Pairwise (fun a b : GRow => a.annee < b.annee)
        ((List.insertionSort rowLe ((groupKeys df).map (aggRow df))).filter
          (fun r => decide (r.nom_region = R))) :=
      pairwise_filter_year R _ (List.sorted_insertionSort _ _)
        (metrics_sorted_pairs df hcons)
    have h1 : List.Pairwise (· < ·)
        (((List.insertionSort rowLe ((groupKeys df).map (aggRow df))).filter
          (fun r => decide (r.nom_region = R))).map (fun r : GRow => r.annee)) :=
      List.pairwise_map.2 hpl
    rw [← diffRegion_map_annee none] at h1
    exact List.pairwise_map.1 h1
  · intro h0
    exact diffRegion_first _ h0
  · intro i h1 h0 a b ha hb
    exact diffRegion_step none _ i h1 h0 a b ha hb

/-- Witness for C2 at the spec's example: region A, rates 10 and 20 per
thousand, variation of the second year equal to their difference. -/
theorem build_region_metrics_variation_witness :
    ((((build_region_metrics dfSample).filter
        (fun r => decide (r.nom_region = "A".data))).get
      ⟨1, by decide⟩).variation_region = (⟨20000, 1000⟩ : Frac) - ⟨10000, 1000⟩) :=
  (build_region_metrics_variation dfSample (by decide) "A".data).2.2 0 (by decide)
    (by decide) ⟨20000, 1000⟩ ⟨10000, 1000⟩ (by decide) (by decide)

/- Lemmas about the heap model. -/

lemma hget_lt_length {h : Heap} {a : Nat} {o : HObj} (hh : hget h a = some o) :
    a < h.length := by
  induction h generalizing a with
  | nil => simp [hget] at hh
  | cons x t ih =>
    cases a with
    | zero => simp
    | succ b => exact Nat.succ_lt_succ (ih hh)

lemma hget_mem {h : Heap} {a : Nat} {o : HObj} (hh : hget h a = some o) : o ∈ h := by
  induction h generalizing a with
  | nil => simp [hget] at hh
  | cons x t ih =>
    cases a with
    | zero =>
      have : x = o := Option.some.inj hh
      simp [this]
    | succ b => exact List.mem_cons_of_mem _ (ih hh)

lemma hget_append_lt {h t : Heap} {a : Nat} (ha : a < h.length) :
    hget (h ++ t) a = hget h a := by
  induction h generalizing a with
  | nil => simp at ha
  | cons x s ih =>
    cases a with
    | zero => rfl
    | succ b => exact ih (Nat.lt_of_succ_lt_succ ha)

lemma hget_append_self (h : Heap) (o : HObj) : hget (h ++ [o]) h.length = some o := by
  induction h with
  | nil => rfl
  | cons x s ih => exact ih

lemma hset_length (h : Heap) (a : Nat) (o : HObj) : (hset h a o).length = h.length := by
  induction h generalizing a with
  | nil => rfl
  | cons x s ih =>
    cases a with
    | zero => rfl
    | succ b => simp [hset, ih]

lemma hget_hset_ne {h : Heap} {a b : Nat} (o : HObj) (hne : b ≠ a) :
    hget (hset h a o) b = hget h b := by
  induction h generalizing a b with
  | nil => rfl
  | cons x s ih =>
    cases a with
    | zero =>
      cases b with
      | zero => exact absurd rfl hne
      | succ c => rfl
    | succ a' =>
      cases b with
      | zero => rfl
      | succ c => exact ih (fun hh => hne (by rw [hh]))

lemma hget_hset_self {h : Heap} {a : Nat} (o : HObj) (ha : a < h.length) :
    hget (hset h a o) a = some o := by
  induction h generalizing a with
  | nil => simp at ha
  | cons x s ih =>
    cases a with
    | zero => rfl
    | succ b => exact ih (Nat.lt_of_succ_lt_succ ha)

lemma hvalRefsGE_mono {v : HVal} {m n : Nat} (h : hvalRefsGE v m) (hnm : n ≤ m) :
    hvalRefsGE v n := fun a ha => hnm.trans (h a ha)

lemma hobjRefsGE_mono {o : HObj} {m n : Nat} (h : hobjRefsGE o m) (hnm : n ≤ m) :
    hobjRefsGE o n := by
  cases o with
  | arr es => exact fun v hv => hvalRefsGE_mono (h v hv) hnm
  | obj fs => exact fun p hp => hvalRefsGE_mono (h p hp) hnm

lemma alookupH_mem {fs : List (Str × HVal)} {k : Str} {v : HVal}
    (h : alookupH fs k = some v) : ∃ k', (k', v) ∈ fs := by
  induction fs with
  | nil => simp [alookupH] at h
  | cons p t ih =>
    obtain ⟨k', v'⟩ := p
    by_cases hk : k' = k
    · rw [alookupH, if_pos hk] at h
      rcases Option.some.inj h with rfl
      exact ⟨k', List.mem_cons_self _ _⟩
    · rw [alookupH, if_neg hk] at h
      rcases ih h with ⟨k2, hk2⟩
      exact ⟨k2, List.mem_cons_of_mem _ hk2⟩

lemma asetH_refsGE {pf : List (Str × HVal)} {n : Nat} {k : Str} {v : HVal}
    (hpf : ∀ p ∈ pf, hvalRefsGE p.2 n) (hv : hvalRefsGE v n) :
    ∀ p ∈ asetH pf k v, hvalRefsGE p.2 n := by
  induction pf with
  | nil =>
    intro p hp
    rcases List.mem_singleton.1 hp with rfl
    exact hv
  | cons q t ih =>
    obtain ⟨k', v'⟩ := q
    intro p hp
    by_cases hk : k' = k
    · rw [asetH, if_pos hk] at hp
      rcases List.mem_cons.1 hp with rfl | hp
      · exact hv
      · exact hpf p (List.mem_cons_of_mem _ hp)
    · rw [asetH, if_neg hk] at hp
      rcases List.mem_cons.1 hp with rfl | hp
      · exact hpf _ (List.mem_cons_self _ _)
      · exact ih (fun q hq => hpf q (List.mem_cons_of_mem _ hq)) p hp

lemma load_fold_none_arr (fuel : Nat) : ∀ (es : List JVal),
    es.foldl (fun acc e => acc.bind (fun hsh =>
      (load fuel e hsh.2).map (fun vh => (hsh.1 ++ [vh.1], vh.2)))) none = none := by
  intro es
  induction es with
  | nil => rfl
  | cons e es ih => exact ih

lemma load_fold_none_obj (fuel : Nat) : ∀ (fs : List (Str × JVal)),
    fs.foldl (fun acc p => acc.bind (fun hsh =>
      (load fuel p.2 hsh.2).map (fun vh => (hsh.1 ++ [(p.1, vh.1)], vh.2)))) none
      = none := by
  intro fs
  induction fs with
  | nil => rfl
  | cons p fs ih => exact ih

lemma load_fold_arr (fuel : Nat)
    (ihl : ∀ (e : JVal) (h1 : Heap) (hv : HVal) (h2 : Heap),
      load fuel e h1 = some (hv, h2) → LoadExt h1 h2 hv) :
    ∀ (es : List JVal) (acc : List HVal) (h : Heap) (res : List HVal × Heap),
    es.foldl (fun acc e => acc.bind (fun hsh =>
      (load fuel e hsh.2).map (fun vh => (hsh.1 ++ [vh.1], vh.2))))
        (some (acc, h)) = some res →
    h.length ≤ res.2.length ∧
    (∀ a, a < h.length → hget res.2 a = hget h a) ∧
    (∀ v ∈ res.1, v ∈ acc ∨ hvalRefsGE v h.length) ∧
    (∀ a o, h.length ≤ a → hget res.2 a = some o → hobjRefsGE o h.length) := by
  intro es
  induction es with
  | nil =>
    intro acc h res hf
    rcases Option.some.inj hf with rfl
    exact ⟨le_refl _, fun _ _ => rfl, fun v hv => Or.inl hv, fun a o ha hg =>
      absurd (hget_lt_length hg) (Nat.not_lt.2 ha)⟩
  | cons e es ihes =>
    intro acc h res hf
    rw [List.foldl_cons] at hf
    cases hle : load fuel e h with
    | none =>
      rw [show ((some (acc, h)).bind (fun hsh =>
          (load fuel e hsh.2).map (fun vh => (hsh.1 ++ [vh.1], vh.2)))) = none by
        simp [hle]] at hf
      rw [load_fold_none_arr fuel es] at hf
      exact Option.noConfusion hf
    | some vh =>
      obtain ⟨hv1, h1⟩ := vh
      have hext1 := ihl e h hv1 h1 hle
      rw [show ((some (acc, h)).bind (fun hsh =>
          (load fuel e hsh.2).map (fun vh => (hsh.1 ++ [vh.1], vh.2))))
          = some (acc ++ [hv1], h1) by simp [hle]] at hf
      have hrec := ihes (acc ++ [hv1]) h1 res hf
      refine ⟨hext1.1.trans hrec.1, ?_, ?_, ?_⟩
      · intro a ha
        rw [hrec.2.1 a (lt_of_lt_of_le ha hext1.1), hext1.2.1 a ha]
      · intro v hv
        rcases hrec.2.2.1 v hv with hacc | hge
        · rcases List.mem_append.1 hacc with h' | h'
          · exact Or.inl h'
          · rcases List.mem_singleton.1 h' with rfl
            exact Or.inr hext1.2.2.1
        · exact Or.inr (hvalRefsGE_mono hge hext1.1)
      · intro a o ha hg
        by_cases hlt : a < h1.length
        · rw [hrec.2.1 a hlt] at hg
          exact hext1.2.2.2 a o ha hg
        · exact hobjRefsGE_mono (hrec.2.2.2 a o (Nat.le_of_not_lt hlt) hg) hext1.1

lemma load_fold_obj (fuel : Nat)
    (ihl : ∀ (e : JVal) (h1 : Heap) (hv : HVal) (h2 : Heap),
      load fuel e h1 = some (hv, h2) → LoadExt h1 h2 hv) :
    ∀ (fs : List (Str × JVal)) (acc : List (Str × HVal)) (h : Heap)
      (res : List (Str × HVal) × Heap),
    fs.foldl (fun acc p => acc.bind (fun hsh =>
      (load fuel p.2 hsh.2).map (fun vh => (hsh.1 ++ [(p.1, vh.1)], vh.2))))
        (some (acc, h)) = some res →
    h.length ≤ res.2.length ∧
    (∀ a, a < h.length → hget res.2 a = hget h a) ∧
    (∀ p ∈ res.1, p ∈ acc ∨ hvalRefsGE p.2 h.length) ∧
    (∀ a o, h.length ≤ a → hget res.2 a = some o → hobjRefsGE o h.length) := by
  intro fs
  induction fs with
  | nil =>
    intro acc h res hf
    rcases Option.some.inj hf with rfl
    exact ⟨le_refl _, fun _ _ => rfl, fun p hp => Or.inl hp, fun a o ha hg =>
      absurd (hget_lt_length hg) (Nat.not_lt.2 ha)⟩
  | cons q fs ihfs =>
    intro acc h res hf
    rw [List.foldl_cons] at hf
    cases hle : load fuel q.2 h with
    | none =>
      rw [show ((some (acc, h)).bind (fun hsh =>
          (load fuel q.2 hsh.2).map (fun vh => (hsh.1 ++ [(q.1, vh.1)], vh.2)))) = none by
        simp [hle]] at hf
      rw [load_fold_none_obj fuel fs] at hf
      exact Option.noConfusion hf
    | some vh =>
      obtain ⟨hv1, h1⟩ := vh
      have hext1 := ihl q.2 h hv1 h1 hle
      rw [show ((some (acc, h)).bind (fun hsh =>
          (load fuel q.2 hsh.2).map (fun vh => (hsh.1 ++ [(q.1, vh.1)], vh.2))))
          = some (acc ++ [(q.1, hv1)], h1) by simp [hle]] at hf
      have hrec := ihfs (acc ++ [(q.1, hv1)]) h1 res hf
      refine ⟨hext1.1.trans hrec.1, ?_, ?_, ?_⟩
      · intro a ha
        rw [hrec.2.1 a (lt_of_lt_of_le ha hext1.1), hext1.2.1 a ha]
      · intro p hp
        rcases hrec.2.2.1 p hp with hacc | hge
        · rcases List.mem_append.1 hacc with h' | h'
          · exact Or.inl h'
          · rcases List.mem_singleton.1 h' with rfl
            exact Or.inr hext1.2.2.1
        · exact Or.inr (hvalRefsGE_mono hge hext1.1)
      · intro a o ha hg
        by_cases hlt : a < h1.length
        · rw [hrec.2.1 a hlt] at hg
          exact hext1.2.2.2 a o ha hg
        · exact hobjRefsGE_mono (hrec.2.2.2 a o (Nat.le_of_not_lt hlt) hg) hext1.1

lemma load_extends : ∀ (fuel : Nat) (v : JVal) (h : Heap) (hv : HVal) (h' : Heap),
    load fuel v h = some (hv, h') → LoadExt h h' hv := by
  intro fuel
  induction fuel with
  | zero =>
    intro v h hv h' hl
    exact Option.noConfusion hl
  | succ fuel ih =>
    intro v h hv h' hl
    cases v with
    | null =>
      have he : (HVal.null, h) = (hv, h') := Option.some.inj hl
      injection he with e1 e2
      subst e1
      subst e2
      refine ⟨le_refl _, fun _ _ => rfl, fun a ha => HVal.noConfusion ha, ?_⟩
      intro a o ha hg
      exact absurd (hget_lt_length hg) (Nat.not_lt.2 ha)
    | jbool b =>
      have he : (HVal.hbool b, h) = (hv, h') := Option.some.inj hl
      injection he with e1 e2
      subst e1
      subst e2
      refine ⟨le_refl _, fun _ _ => rfl, fun a ha => HVal.noConfusion ha, ?_⟩
      intro a o ha hg
      exact absurd (hget_lt_length hg) (Nat.not_lt.2 ha)
    | num q =>
      have he : (HVal.num q, h) = (hv, h') := Option.some.inj hl
      injection he with e1 e2
      subst e1
      subst e2
      refine ⟨le_refl _, fun _ _ => rfl, fun a ha => HVal.noConfusion ha, ?_⟩
      intro a o ha hg
      exact absurd (hget_lt_length hg) (Nat.not_lt.2 ha)
    | str s =>
      have he : (HVal.str s, h) = (hv, h') := Option.some.inj hl
      injection he with e1 e2
      subst e1
      subst e2
      refine ⟨le_refl _, fun _ _ => rfl, fun a ha => HVal.noConfusion ha, ?_⟩
      intro a o ha hg
      exact absurd (hget_lt_length hg) (Nat.not_lt.2 ha)
    | arr es =>
      rw [load] at hl
      cases hfold : es.foldl (fun acc e => acc.bind (fun hsh =>
          (load fuel e hsh.2).map (fun vh => (hsh.1 ++ [vh.1], vh.2))))
          (some ([], h)) with
      | none =>
        rw [hfold] at hl
        exact Option.noConfusion hl
      | some hsh =>
        rw [hfold] at hl
        have he : (HVal.ref hsh.2.length, hsh.2 ++ [HObj.arr hsh.1]) = (hv, h') :=
          Option.some.inj hl
        injection he with e1 e2
        subst e1
        subst e2
        have hfo := load_fold_arr fuel ih es [] h hsh hfold
        refine ⟨?_, ?_, ?_, ?_⟩
        · calc h.length ≤ hsh.2.length := hfo.1
            _ ≤ (hsh.2 ++ [HObj.arr hsh.1]).length := by simp
        · intro a ha
          rw [hget_append_lt (lt_of_lt_of_le ha hfo.1), hfo.2.1 a ha]
        · intro a ha
          have : hsh.2.length = a := by injection ha
          rw [← this]
          exact hfo.1
        · intro a o ha hg
          have halt : a < hsh.2.length + 1 := by
            have := hget_lt_length hg
            simpa using this
          rcases Nat.lt_succ_iff_lt_or_eq.1 halt with hlt | heq
          · rw [hget_append_lt hlt] at hg
            exact hfo.2.2.2 a o ha hg
          · subst heq
            rw [hget_append_self] at hg
            rcases Option.some.inj hg with rfl
            intro u hu
            rcases hfo.2.2.1 u hu with habs | hge
            · exact absurd habs (List.not_mem_nil u)
            · exact hge
    | obj fs =>
      rw [load] at hl
      cases hfold : fs.foldl (fun acc p => acc.bind (fun hsh =>
          (load fuel p.2 hsh.2).map (fun vh => (hsh.1 ++ [(p.1, vh.1)], vh.2))))
          (some ([], h)) with
      | none =>
        rw [hfold] at hl
        exact Option.noConfusion hl
      | some hsh =>
        rw [hfold] at hl
        have he : (HVal.ref hsh.2.length, hsh.2 ++ [HObj.obj hsh.1]) = (hv, h') :=
          Option.some.inj hl
        injection he with e1 e2
        subst e1
        subst e2
        have hfo := load_fold_obj fuel ih fs [] h hsh hfold
        refine ⟨?_, ?_, ?_, ?_⟩
        · calc h.length ≤ hsh.2.length := hfo.1
            _ ≤ (hsh.2 ++ [HObj.obj hsh.1]).length := by simp
        · intro a ha
          rw [hget_append_lt (lt_of_lt_of_le ha hfo.1), hfo.2.1 a ha]
        · intro a ha
          have : hsh.2.length = a := by injection ha
          rw [← this]
          exact hfo.1
        · intro a o ha hg
          have halt : a < hsh.2.length + 1 := by
            have := hget_lt_length hg
            simpa using this
          rcases Nat.lt_succ_iff_lt_or_eq.1 halt with hlt | heq
          · rw [hget_append_lt hlt] at hg
            exact hfo.2.2.2 a o ha hg
          · subst heq
            rw [hget_append_self] at hg
            rcases Option.some.inj hg with rfl
            intro p hp
            rcases hfo.2.2.1 p hp with habs | hge
            · exact absurd habs (List.not_mem_nil p)
            · exact hge

lemma writeNorm_inv {h0 h : Heap} {pa : Nat} {key : Str}
    (hinv : HeapInv h0 h) (hpa : h0.length ≤ pa) :
    HeapInv h0 (writeNorm h pa key) := by
  unfold writeNorm
  cases hg : hget h pa with
  | none => exact hinv
  | some o =>
    cases o with
    | arr es => exact hinv
    | obj pf =>
      refine ⟨?_, ?_, ?_⟩
      · rw [hset_length]
        exact hinv.1
      · intro a ha
        rw [hget_hset_ne _ (Nat.ne_of_lt (lt_of_lt_of_le ha hpa))]
        exact hinv.2.1 a ha
      · intro a o' ha hg'
        by_cases hape : a = pa
        · subst hape
          rw [hget_hset_self _ (hget_lt_length hg)] at hg'
          rcases Option.some.inj hg' with rfl
          have hpf : ∀ p ∈ pf, hvalRefsGE p.2 h0.length :=
            hinv.2.2 a (.obj pf) hpa hg
          exact asetH_refsGE hpf (fun a' ha' => HVal.noConfusion ha')
        · rw [hget_hset_ne _ hape] at hg'
          exact hinv.2.2 a o' ha hg'

lemma annotateFeature_inv {h0 h : Heap} {key : Str} {fv : HVal}
    (hinv : HeapInv h0 h) (hfv : hvalRefsGE fv h0.length) :
    HeapInv h0 (annotateFeature key h fv) := by
  unfold annotateFeature
  cases fv with
  | null => exact hinv
  | hbool b => exact hinv
  | num q => exact hinv
  | str s => exact hinv
  | ref fa =>
    have hfa : h0.length ≤ fa := hfv fa rfl
    cases hg : hget h fa with
    | none => simp only [hg]; exact hinv
    | some o =>
      cases o with
      | arr es => simp only [hg]; exact hinv
      | obj fields =>
        simp only [hg]
        have hfr : hobjRefsGE (.obj fields) h0.length := hinv.2.2 fa _ hfa hg
        cases hl : alookupH fields "properties".data with
        | some pv =>
          cases pv with
          | null => exact hinv
          | hbool b => exact hinv
          | num q => exact hinv
          | str s => exact hinv
          | ref pa =>
            have hpv : hvalRefsGE (HVal.ref pa) h0.length := by
              rcases alookupH_mem hl with ⟨k', hm⟩
              exact hfr (k', .ref pa) hm
            exact writeNorm_inv hinv (hpv pa rfl)
        | none =>
          have hlen : h0.length ≤ h.length := hinv.1
          have h1inv : HeapInv h0 (h ++ [HObj.obj []]) := by
            refine ⟨by simpa using Nat.le_succ_of_le hlen, ?_, ?_⟩
            · intro a ha
              rw [hget_append_lt (lt_of_lt_of_le ha hlen)]
              exact hinv.2.1 a ha
            · intro a o ha hg'
              by_cases hlt : a < h.length
              · rw [hget_append_lt hlt] at hg'
                exact hinv.2.2 a o ha hg'
              · have halt : a < h.length + 1 := by
                  have := hget_lt_length hg'
                  simpa using this
                have heq : a = h.length := by omega
                subst heq
                rw [hget_append_self] at hg'
                rcases Option.some.inj hg' with rfl
                intro p hp
                exact absurd hp (List.not_mem_nil p)
          have h2inv : HeapInv h0 (hset (h ++ [HObj.obj []]) fa
              (.obj (fields ++ [("properties".data, HVal.ref h.length)]))) := by
            refine ⟨?_, ?_, ?_⟩
            · rw [hset_length]
              exact h1inv.1
            · intro a ha
              rw [hget_hset_ne _ (Nat.ne_of_lt (lt_of_lt_of_le ha hfa))]
              exact h1inv.2.1 a ha
            · intro a o ha hg'
              by_cases hafa : a = fa
              · subst hafa
                have hlt : a < (h ++ [HObj.obj []]).length := by
                  have := hget_lt_length hg
                  simp
                  omega
                rw [hget_hset_self _ hlt] at hg'
                rcases Option.some.inj hg' with rfl
                intro p hp
                rcases List.mem_append.1 hp with hp | hp
                · exact hfr p hp
                · rcases List.mem_singleton.1 hp with rfl
                  intro a' ha'
                  have : h.length = a' := by injection ha'
                  omega
              · rw [hget_hset_ne _ hafa] at hg'
                exact h1inv.2.2 a o ha hg'
          exact writeNorm_inv h2inv hlen

lemma annotate_fold_inv {h0 : Heap} (key : Str) : ∀ (fvs : List HVal) (h : Heap),
    HeapInv h0 h → (∀ v ∈ fvs, hvalRefsGE v h0.length) →
    HeapInv h0 (fvs.foldl (annotateFeature key) h) := by
  intro fvs
  induction fvs with
  | nil => intro h hinv _; exact hinv
  | cons v vs ih =>
    intro h hinv hrefs
    rw [List.foldl_cons]
    exact ih _ (annotateFeature_inv hinv (hrefs v (List.mem_cons_self _ _)))
      (fun u hu => hrefs u (List.mem_cons_of_mem _ hu))

lemma featsOf_refsGE {h0 h : Heap} {root : Nat} (hinv : HeapInv h0 h)
    (hroot : h0.length ≤ root) : ∀ v ∈ featsOf h root, hvalRefsGE v h0.length := by
  unfold featsOf
  cases hg : hget h root with
  | none => simp only [hg]; intro v hv; exact absurd hv (List.not_mem_nil v)
  | some o =>
    cases o with
    | arr es => simp only [hg]; intro v hv; exact absurd hv (List.not_mem_nil v)
    | obj fs =>
      simp only [hg]
      have hfr : hobjRefsGE (.obj fs) h0.length := hinv.2.2 root _ hroot hg
      cases hl : alookupH fs "features".data with
      | none => intro v hv; exact absurd hv (List.not_mem_nil v)
      | some fv =>
        cases fv with
        | null => intro v hv; exact absurd hv (List.not_mem_nil v)
        | hbool b => intro v hv; exact absurd hv (List.not_mem_nil v)
        | num q => intro v hv; exact absurd hv (List.not_mem_nil v)
        | str s => intro v hv; exact absurd hv (List.not_mem_nil v)
        | ref a =>
          have hge : h0.length ≤ a := by
            rcases alookupH_mem hl with ⟨k', hm⟩
            exact hfr (k', .ref a) hm a rfl
          cases hga : hget h a with
          | none => simp only [hga]; intro v hv; exact absurd hv (List.not_mem_nil v)
          | some o2 =>
            cases o2 with
            | obj fs2 =>
              simp only [hga]; intro v hv; exact absurd hv (List.not_mem_nil v)
            | arr es =>
              simp only [hga]
              exact hinv.2.2 a _ hge hga

lemma heapWF_get {h : Heap} {a : Nat} {o : HObj} (hwf : heapWF h = true)
    (hg : hget h a = some o) : hobjRefsLT o h.length = true := by
  have hm := hget_mem hg
  exact List.all_eq_true.1 hwf o hm

lemma dump_fold_congr_arr (h h' : Heap) (fuel : Nat) (es : List HVal)
    (hc : ∀ v ∈ es, dump h' fuel v = dump h fuel v) :
    ∀ acc : Option (List JVal),
      es.foldl (fun acc v => acc.bind (fun js =>
          (dump h' fuel v).map (fun j => js ++ [j]))) acc
      = es.foldl (fun acc v => acc.bind (fun js =>
          (dump h fuel v).map (fun j => js ++ [j]))) acc := by
  induction es with
  | nil => intro acc; rfl
  | cons v vs ih =>
    intro acc
    rw [List.foldl_cons, List.foldl_cons, hc v (List.mem_cons_self _ _)]
    exact ih (fun u hu => hc u (List.mem_cons_of_mem _ hu)) _

lemma dump_fold_congr_obj (h h' : Heap) (fuel : Nat) (fs : List (Str × HVal))
    (hc : ∀ p ∈ fs, dump h' fuel p.2 = dump h fuel p.2) :
    ∀ acc : Option (List (Str × JVal)),
      fs.foldl (fun acc p => acc.bind (fun js =>
          (dump h' fuel p.2).map (fun j => js ++ [(p.1, j)]))) acc
      = fs.foldl (fun acc p => acc.bind (fun js =>
          (dump h fuel p.2).map (fun j => js ++ [(p.1, j)]))) acc := by
  induction fs with
  | nil => intro acc; rfl
  | cons p ps ih =>
    intro acc
    rw [List.foldl_cons, List.foldl_cons, hc p (List.mem_cons_self _ _)]
    exact ih (fun q hq => hc q (List.mem_cons_of_mem _ hq)) _

lemma dump_congr : ∀ (fuel : Nat) (h h' : Heap) (v : HVal),
    heapWF h = true →
    (∀ a, a < h.length → hget h' a = hget h a) →
    hvalRefsLT v h.length = true →
    dump h' fuel v = dump h fuel v := by
  intro fuel
  induction fuel with
  | zero => intro h h' v _ _ _; rfl
  | succ fuel ih =>
    intro h h' v hwf hpre hv
    cases v with
    | null => rfl
    | hbool b => rfl
    | num q => rfl
    | str s => rfl
    | ref a =>
      have ha : a < h.length := by simpa [hvalRefsLT] using hv
      show (match hget h' a with
        | some (.arr es) =>
          (es.foldl (fun (acc : Option (List JVal)) v => acc.bind (fun js =>
            (dump h' fuel v).map (fun j => js ++ [j]))) (some [])).map JVal.arr
        | some (.obj fs) =>
          (fs.foldl (fun (acc : Option (List (Str × JVal))) (p : Str × HVal) => acc.bind (fun js =>
            (dump h' fuel p.2).map (fun j => js ++ [(p.1, j)]))) (some [])).map JVal.obj
        | none => none)
        = (match hget h a with
        | some (.arr es) =>
          (es.foldl (fun (acc : Option (List JVal)) v => acc.bind (fun js =>
            (dump h fuel v).map (fun j => js ++ [j]))) (some [])).map JVal.arr
        | some (.obj fs) =>
          (fs.foldl (fun (acc : Option (List (Str × JVal))) (p : Str × HVal) => acc.bind (fun js =>
            (dump h fuel p.2).map (fun j => js ++ [(p.1, j)]))) (some [])).map JVal.obj
        | none => none)
      rw [hpre a ha]
      cases hg : hget h a with
      | none => rfl
      | some o =>
        cases o with
        | arr es =>
          have hall : ∀ u ∈ es, hvalRefsLT u h.length = true := by
            have := heapWF_get hwf hg
            exact fun u hu => List.all_eq_true.1 this u hu
          exact congrArg (Option.map JVal.arr) (dump_fold_congr_arr h h' fuel es
            (fun u hu => ih h h' u hwf hpre (hall u hu)) (some []))
        | obj fs =>
          have hall : ∀ p ∈ fs, hvalRefsLT p.2 h.length = true := by
            have := heapWF_get hwf hg
            exact fun p hp => List.all_eq_true.1 this p hp
          exact congrArg (Option.map JVal.obj) (dump_fold_congr_obj h h' fuel fs
            (fun p hp => ih h h' p.2 hwf hpre (hall p hp)) (some []))

/-- C6: geojson_with_norm_names operates on a deep copy and never mutates
the caller's structure: on a well-formed heap, the input object
serialises to the same JSON value before and after the call. -/
theorem geojson_with_norm_names_no_mutation (fuel : Nat) (h : Heap) (root : Nat)
    (v : JVal) (hwf : heapWF h = true) (hroot : root < h.length)
    (hd : dump h fuel (.ref root) = some v) :
    ∀ res, geojson_with_norm_names_heap fuel h root = some res →
      dump res.1 fuel (.ref root) = some v := by
  intro res hrun
  unfold geojson_with_norm_names_heap at hrun
  simp only [hd] at hrun
  cases hl : load fuel v h with
  | none =>
    simp only [hl] at hrun
    exact Option.noConfusion hrun
  | some vh =>
    obtain ⟨hv, h1⟩ := vh
    cases hv with
    | null => simp only [hl] at hrun; exact Option.noConfusion hrun
    | hbool b => simp only [hl] at hrun; exact Option.noConfusion hrun
    | num q => simp only [hl] at hrun; exact Option.noConfusion hrun
    | str s => simp only [hl] at hrun; exact Option.noConfusion hrun
    | ref copyRoot =>
      simp only [hl] at hrun
      rcases Option.some.inj hrun with rfl
      have hext := load_extends fuel v h _ _ hl
      have hinv1 : HeapInv h h1 := ⟨hext.1, hext.2.1, hext.2.2.2⟩
      have hcr : h.length ≤ copyRoot := hext.2.2.1 copyRoot rfl
      have hfeats := featsOf_refsGE hinv1 hcr
      have hinv2 := annotate_fold_inv (hGuessKey h1 copyRoot)
        (featsOf h1 copyRoot) h1 hinv1 hfeats
      have hcongr := dump_congr fuel h
        ((featsOf h1 copyRoot).foldl (annotateFeature (hGuessKey h1 copyRoot)) h1)
        (.ref root) hwf hinv2.2.1 (by simpa [hvalRefsLT] using hroot)
      rw [hcongr]
      exact hd

/-- Witness for C6: a concrete three-object heap (a feature collection
whose single feature has no properties yet) serialises identically before
and after the call. -/
theorem geojson_with_norm_names_no_mutation_witness :
    dump ((geojson_with_norm_names_heap 5 heapSample 0).getD ([], 0, [])).1 5
        (HVal.ref 0)
      = some (JVal.obj [("features".data, JVal.arr [JVal.obj []])]) :=
  geojson_with_norm_names_no_mutation 5 heapSample 0
    (JVal.obj [("features".data, JVal.arr [JVal.obj []])])
    (by decide) (by decide) rfl
    ((geojson_with_norm_names_heap 5 heapSample 0).getD ([], 0, [])) rfl
